import Mathlib

/-!
go-flexivis-url: layout compiler and value encoder.

A shallow embedding of `flexivis.go`.

* Go strings are byte sequences: `List Byte` with `Byte = Fin 256`.
* A Go `panic` (explicit, or an index out of range) is `none`.
* An interface value of type `StructuredLayout` is an element of the inductive
  type `StructuredLayout`, the nil value included; where the Go code receives
  such a value only to call its single method `layoutAndEmbeddedViews`, the
  embedding passes the outcome of that call.
-/

namespace Flexivis

/-! ## Bytes and strings -/

/-- A Go `byte` (`uint8`). -/
abbrev Byte := Fin 256

/-- The byte of an ASCII character literal. -/
def ch (c : Char) : Byte := Fin.ofNat c.toNat

/-- The bytes of an ASCII string literal. -/
def ascii (s : String) : List Byte := s.data.map ch

/-! ## `shouldEscape` (flexivis.go 252-276) -/

/-- Go `shouldEscape`: the alphanumeric test, then the outer `switch c` with its two
case lists, the second holding the inner `switch c` on `&`, `+`, `#`.
Byte 39 is the apostrophe. -/
def shouldEscape (c : Byte) : Bool :=
  if (ch 'a' ≤ c ∧ c ≤ ch 'z') ∨ (ch 'A' ≤ c ∧ c ≤ ch 'Z') ∨ (ch '0' ≤ c ∧ c ≤ ch '9') then
    false
  else if c ∈ [ch '-', ch '_', ch '.', ch '~'] then
    false
  else if c ∈ [ch ':', ch '/', ch '?', ch '#', ch '[', ch ']', ch '@', ch '!', ch '$', ch '&',
      39, ch '(', ch ')', ch '*', ch '+', ch ',', ch ';', ch '='] then
    if c = ch '&' then true
    else if c = ch '+' then true
    else if c = ch '#' then true
    else false
  else
    true

/-! ## `escapeParameterValue` (flexivis.go 212-250) -/

/-- The first loop of `escapeParameterValue`, `for i := 0; i < len(value); i++`, over the
bytes still to visit, threading `hasSpace` and `charactersToPercentEncode`. -/
def countPass : List Byte → Bool → Nat → Bool × Nat
  | [], hasSpace, charactersToPercentEncode => (hasSpace, charactersToPercentEncode)
  | c :: rest, hasSpace, charactersToPercentEncode =>
    if shouldEscape c then
      if c = ch ' ' then countPass rest true charactersToPercentEncode
      else countPass rest hasSpace (charactersToPercentEncode + 1)
    else countPass rest hasSpace charactersToPercentEncode

/-- A UTF-8 continuation byte, `0x80 ≤ b ≤ 0xBF`. -/
def isContinuation (b : Byte) : Bool := 0x80 ≤ b.val && b.val ≤ 0xBF

/-- Go language semantics of `for i := range s` on a string: the number of bytes by
which the index advances from the head of the non-empty remainder `s`. A byte below
`0x80` advances by one; a well-formed two-, three- or four-byte UTF-8 sequence
(shortest form, no surrogate, at most `0x10FFFF`) advances by its length; anything
else is an invalid sequence and advances by a single byte. -/
def runeWidth : List Byte → Nat
  | [] => 1
  | b0 :: rest =>
    if b0.val < 0x80 then 1
    else if 0xC0 ≤ b0.val ∧ b0.val < 0xE0 then
      match rest with
      | b1 :: _ =>
        if isContinuation b1 ∧ 0x7F < (b0.val % 32) * 64 + b1.val % 64 then 2 else 1
      | _ => 1
    else if 0xE0 ≤ b0.val ∧ b0.val < 0xF0 then
      match rest with
      | b1 :: b2 :: _ =>
        if isContinuation b1 ∧ isContinuation b2
            ∧ 0x7FF < (b0.val % 16) * 4096 + (b1.val % 64) * 64 + b2.val % 64
            ∧ ¬ (0xD800 ≤ (b0.val % 16) * 4096 + (b1.val % 64) * 64 + b2.val % 64
                ∧ (b0.val % 16) * 4096 + (b1.val % 64) * 64 + b2.val % 64 ≤ 0xDFFF) then 3
        else 1
      | _ => 1
    else if 0xF0 ≤ b0.val ∧ b0.val < 0xF8 then
      match rest with
      | b1 :: b2 :: b3 :: _ =>
        if isContinuation b1 ∧ isContinuation b2 ∧ isContinuation b3
            ∧ 0xFFFF < (b0.val % 8) * 262144 + (b1.val % 64) * 4096 + (b2.val % 64) * 64
                + b3.val % 64
            ∧ (b0.val % 8) * 262144 + (b1.val % 64) * 4096 + (b2.val % 64) * 64
                + b3.val % 64 ≤ 0x10FFFF then 4
        else 1
      | _ => 1
    else 1

/-- The output buffer of `escapeParameterValue`: the slice `encoded` and the write
index `encodedIndex` captured by the closure `emit`. -/
structure Buffer where
  encoded : List Byte
  encodedIndex : Nat
  deriving DecidableEq, Repr

/-- The closure `emit`: `encoded[encodedIndex] = c; encodedIndex++`. The indexed store
panics when the index is not below `len(encoded)`. -/
def emit (st : Buffer) (c : Byte) : Option Buffer :=
  if st.encodedIndex < st.encoded.length then
    some ⟨st.encoded.set st.encodedIndex c, st.encodedIndex + 1⟩
  else none

/-- The digit table `"0123456789ABCDEF"`. -/
def hexDigits : List Byte := ascii "0123456789ABCDEF"

/-- The body of the second loop of `escapeParameterValue` for the byte `c = value[i]`. -/
def emitStep (st : Buffer) (c : Byte) : Option Buffer :=
  if !shouldEscape c then emit st c
  else if c = ch ' ' then emit st (ch '+')
  else
    (emit st (ch '%')).bind fun st1 =>
    (hexDigits.get? (c.val >>> 4)).bind fun hi =>
    (emit st1 hi).bind fun st2 =>
    (hexDigits.get? (c.val &&& 0xf)).bind fun lo =>
    emit st2 lo

/-- The second loop of `escapeParameterValue`, `for i := range value`, over the bytes
from the current position on. `skip` counts the bytes that still belong to the UTF-8
sequence whose first byte was visited last: the range loop passes over them without
running the body. -/
def emitPass : List Byte → Nat → Buffer → Option Buffer
  | [], _, st => some st
  | c :: rest, 0, st =>
    (emitStep st c).bind fun st1 => emitPass rest (runeWidth (c :: rest) - 1) st1
  | _ :: rest, skip + 1, st => emitPass rest skip st

/-- Go `escapeParameterValue`. -/
def escapeParameterValue (value : List Byte) : Option (List Byte) :=
  let counted := countPass value false 0
  let hasSpace := counted.1
  let charactersToPercentEncode := counted.2
  if charactersToPercentEncode = 0 ∧ hasSpace = false then some value
  else
    (emitPass value 0 ⟨List.replicate (value.length + 2 * charactersToPercentEncode) 0, 0⟩).map
      fun st => st.encoded

/-! ## Layouts, views and the layout compiler -/

/-- Go `type Layout string`. -/
abbrev Layout := List Byte

/-- Go `type ViewName string`. -/
abbrev ViewName := List Byte

/-- Go `type ViewType string`. -/
abbrev ViewType := List Byte

/-- Go `type Resource string`. -/
abbrev Resource := List Byte

/-- Go `outerLayoutStructure` with its constants `atomic`, `scaled`, `joined`
(`iota` values 0, 1, 2). -/
inductive outerLayoutStructure where
  | atomic
  | scaled
  | joined
  deriving DecidableEq, Repr

/-- The `iota` value of an `outerLayoutStructure` constant. -/
def outerLayoutStructure.toNat : outerLayoutStructure → Nat
  | .atomic => 0
  | .scaled => 1
  | .joined => 2

/-- Go `View`. The field `Type` of the source is `Type_` here. -/
structure View where
  Name : ViewName
  Type_ : ViewType
  Resource : Resource
  deriving DecidableEq, Repr

/-- The values of the Go interface `StructuredLayout`: `nil`, and the implementations
`SideBySide`, `VerticalStack`, `Sized` (with its `uint8` percentage), `ViewName` and
`View`. `nil` is the nil interface value (the zero value of `Sized.InnerLayout` and of a
slice element) and equally a nil pointer to one of the five types, which implements the
interface too: calling the method on either panics. A non-nil pointer is the value it
points to. -/
inductive StructuredLayout where
  | nil
  | SideBySide (s : List StructuredLayout)
  | VerticalStack (s : List StructuredLayout)
  | Sized (InnerLayout : StructuredLayout) (Percentage : Fin 256)
  | ViewName (n : ViewName)
  | View (v : View)

/-- What `layoutAndEmbeddedViews` returns. -/
abbrev Compiled := Layout × outerLayoutStructure × List View

/-- Go `parenthesize`. -/
def parenthesize (layout : Layout) : Layout := ascii "(" ++ layout ++ ascii ")"

/-- Go `ensureOuterStructureAtMost`; `called` is the outcome of
`structuredLayout.layoutAndEmbeddedViews()`. -/
def ensureOuterStructureAtMost (max : outerLayoutStructure) (called : Option Compiled) :
    Option (Layout × List View) :=
  match called with
  | none => none
  | some (layout, outerStructure, embeddedViews) =>
    if outerStructure.toNat ≤ max.toNat then some (layout, embeddedViews)
    else some (parenthesize layout, embeddedViews)

/-- The `for i, structuredLayout := range structuredLayouts` loop of the `default` case
of `joinLayoutsAndEmbeddedViews`, from index `i` on, threading the builder
`joinedLayout` and the slice `joinedViews`. -/
def joinLoop (joiner : Byte) : List (Option Compiled) → Nat → List Byte → List View →
    Option (List Byte × List View)
  | [], _, joinedLayout, joinedViews => some (joinedLayout, joinedViews)
  | structuredLayout :: rest, i, joinedLayout, joinedViews =>
    match ensureOuterStructureAtMost .scaled structuredLayout with
    | none => none
    | some (layout, views) =>
      joinLoop joiner rest (i + 1)
        ((if i ≠ 0 then joinedLayout ++ [joiner] else joinedLayout) ++ layout)
        (joinedViews ++ views)

/-- Go `joinLayoutsAndEmbeddedViews`; each element of `structuredLayouts` is the outcome
of that child's `layoutAndEmbeddedViews()`. -/
def joinLayoutsAndEmbeddedViews (joiner : Byte) (structuredLayouts : List (Option Compiled)) :
    Option Compiled :=
  match structuredLayouts with
  | [] => none
  | [only] => only
  | _ =>
    match joinLoop joiner structuredLayouts 0 [] [] with
    | none => none
    | some (joinedLayout, joinedViews) => some (joinedLayout, .joined, joinedViews)

/-- Go `fmt.Sprintf("%v", p)` for a `uint8`: the decimal digits of `p`. -/
def formatUint8 (p : Fin 256) : List Byte := (Nat.toDigits 10 p.val).map ch

mutual
/-- The method `layoutAndEmbeddedViews` of each implementation of `StructuredLayout`; the
call on a nil value panics. -/
def StructuredLayout.layoutAndEmbeddedViews : StructuredLayout → Option Compiled
  | .nil => none
  | .SideBySide s => joinLayoutsAndEmbeddedViews (ch '/') (layoutAndEmbeddedViewsEach s)
  | .VerticalStack s => joinLayoutsAndEmbeddedViews (ch '-') (layoutAndEmbeddedViewsEach s)
  | .Sized InnerLayout Percentage =>
    match ensureOuterStructureAtMost .atomic InnerLayout.layoutAndEmbeddedViews with
    | none => none
    | some (atomic, embedded) => some (atomic ++ formatUint8 Percentage, .scaled, embedded)
  | .ViewName n => some (n, .atomic, [])
  | .View v => some (v.Name, .atomic, [v])
/-- The outcome of `layoutAndEmbeddedViews()` for each element of a slice of children. -/
def layoutAndEmbeddedViewsEach : List StructuredLayout → List (Option Compiled)
  | [] => []
  | c :: cs => c.layoutAndEmbeddedViews :: layoutAndEmbeddedViewsEach cs
end

/-! ## URL assembly -/

/-- The `for _, view := range views` loop of `Layout.URL`, threading the builder `b`
and `hasWrittenParam`. -/
def urlLoop : List View → List Byte → Bool → Option (List Byte)
  | [], b, _ => some b
  | view :: rest, b, hasWrittenParam =>
    match escapeParameterValue view.Resource with
    | none => none
    | some escaped =>
      urlLoop rest
        ((if view.Type_ ≠ [] then
            (if hasWrittenParam then b ++ [ch '&'] else b) ++ view.Name ++ [ch '='] ++ view.Type_
              ++ [ch ':']
          else (if hasWrittenParam then b ++ [ch '&'] else b) ++ view.Name ++ [ch '='])
          ++ escaped)
        true

/-- Go `Layout.URL`. -/
def Layout.URL (l : Layout) (views : List View) : Option (List Byte) :=
  if l ≠ [] then
    urlLoop views (ascii "https://flexivis.infrastruktur.link#" ++ ascii "layout=" ++ l) true
  else
    urlLoop views (ascii "https://flexivis.infrastruktur.link#") false

/-- Go `URL`. -/
def URL (structuredLayout : StructuredLayout) : Option (List Byte) :=
  match structuredLayout.layoutAndEmbeddedViews with
  | none => none
  | some (layout, _, views) =>
    Layout.URL (if layout = ascii "url" then [] else layout) views

/-! ## Constructors -/

/-- Go `strings.HasPrefix`. -/
def hasPrefix (s p : List Byte) : Bool := p.isPrefixOf s

/-- Go `IFrame`. -/
def IFrame (name : ViewName) (url : List Byte) : Option View :=
  if !(hasPrefix url (ascii "https:") || hasPrefix url (ascii "http:")
      || hasPrefix url (ascii "file:")) then none
  else some ⟨name, [], url⟩

/-- Go `Inline`. -/
def Inline (contents : List Byte) : Resource := ascii "inline:" ++ contents

/-- Go `JSON`. -/
def JSON (name : ViewName) (json : Resource) : View := ⟨name, ascii "json", json⟩

/-- Go `Map`. -/
def Map (name : ViewName) (geoJSON : Resource) : View := ⟨name, ascii "map", geoJSON⟩

/-- Go `Markdown`. -/
def Markdown (name : ViewName) (markdown : Resource) : View := ⟨name, ascii "md", markdown⟩

/-- Go `Mermaid`. -/
def Mermaid (name : ViewName) (markdown : Resource) : View := ⟨name, ascii "mermaid", markdown⟩

/-- Go `Text`. -/
def Text (name : ViewName) (markdown : Resource) : View := ⟨name, ascii "text", markdown⟩

/-- Go `Vega`. -/
def Vega (name : ViewName) (markdown : Resource) : View := ⟨name, ascii "vega", markdown⟩

/-! ## Reference definitions used to state the properties -/

/-- The uppercase hexadecimal digit of a value below 16. -/
def hexUpper (n : Nat) : Byte := if n < 10 then Fin.ofNat (48 + n) else Fin.ofNat (55 + n)

/-- The per-byte encoding: the byte itself when it is not escaped, `+` for a space,
otherwise `%` and the two uppercase hexadecimal digits of the byte. -/
def encodeByte (b : Byte) : List Byte :=
  if shouldEscape b = false then [b]
  else if b = ch ' ' then [ch '+']
  else [ch '%', hexUpper (b.val / 16), hexUpper (b.val % 16)]

/-- The bytewise encoder: the per-byte encodings of every byte, in input order. -/
def bytewiseEncode (s : List Byte) : List Byte := s.flatMap encodeByte

/-- The value of a hexadecimal digit, of either case. -/
def hexValue (b : Byte) : Option Nat :=
  if 48 ≤ b.val ∧ b.val ≤ 57 then some (b.val - 48)
  else if 65 ≤ b.val ∧ b.val ≤ 70 then some (b.val - 55)
  else if 97 ≤ b.val ∧ b.val ≤ 102 then some (b.val - 87)
  else none

/-- Standard percent-decoding with `+` mapped to space: each `%XX` becomes the byte with
hexadecimal value `XX`, each `+` a space, every other byte is kept; a `%` that is not
followed by two hexadecimal digits is an error. -/
def percentDecode : List Byte → Option (List Byte)
  | [] => some []
  | c :: rest =>
    if c = ch '%' then
      match rest with
      | hi :: lo :: rest2 =>
        match hexValue hi, hexValue lo, percentDecode rest2 with
        | some h, some l, some r => some (Fin.ofNat (16 * h + l) :: r)
        | _, _, _ => none
      | _ => none
    else if c = ch '+' then (percentDecode rest).map fun r => ch ' ' :: r
    else (percentDecode rest).map fun r => c :: r

/-- The bytes on which the body of `for i := range value` runs: the first byte of each
UTF-8 sequence, with `skip` bytes still to pass over. -/
def rangeVisited : List Byte → Nat → List Byte
  | [], _ => []
  | c :: rest, 0 => c :: rangeVisited rest (runeWidth (c :: rest) - 1)
  | _ :: rest, skip + 1 => rangeVisited rest skip

/-- An ASCII letter. -/
def isAsciiLetter (c : Byte) : Prop := (97 ≤ c.val ∧ c.val ≤ 122) ∨ (65 ≤ c.val ∧ c.val ≤ 90)

/-- An ASCII digit. -/
def isAsciiDigit (c : Byte) : Prop := 48 ≤ c.val ∧ c.val ≤ 57

/-- The four unreserved symbols `- _ . ~`. -/
def unreservedSymbols : List Byte := ascii "-_.~"

/-- The URI reserved characters without `&`, `+` and `#`:
`: / ? [ ] @ ! $ ( ) * , ; =` and the apostrophe (byte 39). -/
def keptReserved : List Byte := 39 :: ascii ":/?[]@!$()*,;="

/-- The text of a compiled child as a join embeds it: in parentheses exactly when the
child is itself joined. -/
def embedInJoin (r : Compiled) : List Byte :=
  if r.2.1 = .joined then ascii "(" ++ r.1 ++ ascii ")" else r.1

/-- The text of a compiled child as `Sized` embeds it: unchanged when atomic, in
parentheses when scaled or joined. -/
def embedInSized (text : List Byte) : outerLayoutStructure → List Byte
  | .atomic => text
  | .scaled => ascii "(" ++ text ++ ascii ")"
  | .joined => ascii "(" ++ text ++ ascii ")"

/-- The number read from a string of decimal digits, most significant first; `none` when
the string is empty or holds another byte. -/
def decimalValue (s : List Byte) : Option Nat :=
  if s = [] then none
  else s.foldl (fun acc b =>
    match acc with
    | none => none
    | some n => if 48 ≤ b.val ∧ b.val ≤ 57 then some (10 * n + (b.val - 48)) else none)
    (some 0)

mutual
/-- The `View` leaves of a layout tree, left to right, depth first. -/
def StructuredLayout.viewLeaves : StructuredLayout → List View
  | .nil => []
  | .SideBySide s => viewLeavesEach s
  | .VerticalStack s => viewLeavesEach s
  | .Sized InnerLayout _ => InnerLayout.viewLeaves
  | .ViewName _ => []
  | .View v => [v]
/-- The `View` leaves of a list of trees, in list order. -/
def viewLeavesEach : List StructuredLayout → List View
  | [] => []
  | c :: cs => c.viewLeaves ++ viewLeavesEach cs
end

mutual
/-- The number of `View` leaves of a layout tree. -/
def StructuredLayout.viewLeafCount : StructuredLayout → Nat
  | .nil => 0
  | .SideBySide s => viewLeafCountEach s
  | .VerticalStack s => viewLeafCountEach s
  | .Sized InnerLayout _ => InnerLayout.viewLeafCount
  | .ViewName _ => 0
  | .View _ => 1
/-- The number of `View` leaves of a list of trees. -/
def viewLeafCountEach : List StructuredLayout → Nat
  | [] => 0
  | c :: cs => c.viewLeafCount + viewLeafCountEach cs
end

mutual
/-- No `SideBySide` or `VerticalStack` of the tree, at any depth, has zero children. -/
def StructuredLayout.noEmptyJoin : StructuredLayout → Bool
  | .nil => true
  | .SideBySide s => !s.isEmpty && noEmptyJoinEach s
  | .VerticalStack s => !s.isEmpty && noEmptyJoinEach s
  | .Sized InnerLayout _ => InnerLayout.noEmptyJoin
  | .ViewName _ => true
  | .View _ => true
/-- Every tree of the list satisfies `noEmptyJoin`. -/
def noEmptyJoinEach : List StructuredLayout → Bool
  | [] => true
  | c :: cs => c.noEmptyJoin && noEmptyJoinEach cs
end

mutual
/-- No node of the tree, at any depth, is nil. -/
def StructuredLayout.noNil : StructuredLayout → Bool
  | .nil => false
  | .SideBySide s => noNilEach s
  | .VerticalStack s => noNilEach s
  | .Sized InnerLayout _ => InnerLayout.noNil
  | .ViewName _ => true
  | .View _ => true
/-- Every tree of the list satisfies `noNil`. -/
def noNilEach : List StructuredLayout → Bool
  | [] => true
  | c :: cs => c.noNil && noNilEach cs
end

/-- The fixed prefix of every URL. -/
def urlPrefix : List Byte := ascii "https://flexivis.infrastruktur.link#"

/-- The parameter of a view whose encoded resource is `escaped`:
`Name=` then `Type:` when the type is non-empty, then the encoded resource. -/
def viewParameter (v : View) (escaped : List Byte) : List Byte :=
  v.Name ++ [ch '='] ++ (if v.Type_ ≠ [] then v.Type_ ++ [ch ':'] else []) ++ escaped

/-- The layout parameter: `layout=` and the layout text when it is non-empty, no
parameter otherwise. -/
def layoutParameter (l : Layout) : List (List Byte) :=
  if l ≠ [] then [ascii "layout=" ++ l] else []

/-- A byte that the first pass counts in `charactersToPercentEncode`. -/
def percentEncoded (c : Byte) : Bool := shouldEscape c && !decide (c = ch ' ')

/-- The bytes the second pass writes: the per-byte encodings of the visited bytes. -/
def emitted (s : List Byte) (skip : Nat) : List Byte := (rangeVisited s skip).flatMap encodeByte

/-- The scheme of a URL: the text before its first `:`; `none` when it has no `:`. -/
def scheme : List Byte → Option (List Byte)
  | [] => none
  | c :: rest => if c = ch ':' then some [] else (scheme rest).map fun s => c :: s

/-- The number of positions of `l` at which the non-empty pattern `pat` occurs. -/
def countInfix (pat : List Byte) : List Byte → Nat
  | [] => 0
  | c :: rest => (if pat.isPrefixOf (c :: rest) then 1 else 0) + countInfix pat rest

/-- The percent form of a byte: `%` and its two uppercase hexadecimal digits. -/
def percentForm (b : Byte) : List Byte := [ch '%', hexUpper (b.val / 16), hexUpper (b.val % 16)]

/-- The bytes whose encodings make up the result of `escapeParameterValue`: every byte
of the input when none is escaped (the input is returned as it is), otherwise the bytes
on which the body of the range loop runs. -/
def encodedBytes (s : List Byte) : List Byte :=
  if s.countP percentEncoded = 0 ∧ s.any (fun c => decide (c = ch ' ')) = false then s
  else rangeVisited s 0

/-! ## The value encoder: what the two passes compute -/

theorem shouldEscape_space : shouldEscape (ch ' ') = true := by decide

theorem encodeByte_length (c : Byte) :
    (encodeByte c).length = 1 + 2 * (if percentEncoded c then 1 else 0) := by
  unfold encodeByte percentEncoded
  by_cases h1 : shouldEscape c = false
  · simp [h1]
  · by_cases h2 : c = ch ' '
    · subst h2
      simp [shouldEscape_space]
    · simp [h1, h2]

theorem bytewiseEncode_nil : bytewiseEncode [] = [] := rfl

theorem bytewiseEncode_cons (c : Byte) (s : List Byte) :
    bytewiseEncode (c :: s) = encodeByte c ++ bytewiseEncode s := by
  simp [bytewiseEncode]

theorem bytewiseEncode_length (s : List Byte) :
    (bytewiseEncode s).length = s.length + 2 * s.countP percentEncoded := by
  induction s with
  | nil => simp [bytewiseEncode_nil]
  | cons c s ih =>
    rw [bytewiseEncode_cons, List.length_append, ih, encodeByte_length, List.countP_cons,
      List.length_cons]
    split <;> simp_all <;> omega

theorem countPass_eq (s : List Byte) (hasSpace : Bool) (n : Nat) :
    countPass s hasSpace n
      = (hasSpace || s.any (fun c => decide (c = ch ' ')), n + s.countP percentEncoded) := by
  induction s generalizing hasSpace n with
  | nil => simp [countPass]
  | cons c s ih =>
    unfold countPass
    by_cases h1 : shouldEscape c = true
    · by_cases h2 : c = ch ' '
      · subst h2
        simp [shouldEscape_space, ih, percentEncoded]
      · simp [h1, h2, ih, percentEncoded, List.countP_cons]
        omega
    · have h3 : c ≠ ch ' ' := fun h => h1 (h ▸ shouldEscape_space)
      simp [h1, h3, ih, percentEncoded, List.countP_cons]

theorem emit_append (w : List Byte) (x c : Byte) (t : List Byte) :
    emit ⟨w ++ x :: t, w.length⟩ c = some ⟨(w ++ [c]) ++ t, (w ++ [c]).length⟩ := by
  simp [emit]

set_option maxRecDepth 100000 in
theorem hexDigits_lookup : ∀ c : Byte,
    hexDigits.get? (c.val >>> 4) = some (hexUpper (c.val / 16))
      ∧ hexDigits.get? (c.val &&& 0xf) = some (hexUpper (c.val % 16)) := by
  decide

theorem emitStep_append (w t : List Byte) (c : Byte) (h : (encodeByte c).length ≤ t.length) :
    emitStep ⟨w ++ t, w.length⟩ c
      = some ⟨(w ++ encodeByte c) ++ t.drop (encodeByte c).length,
          (w ++ encodeByte c).length⟩ := by
  unfold emitStep
  by_cases h1 : shouldEscape c = false
  · have he : encodeByte c = [c] := by simp [encodeByte, h1]
    rw [he] at h ⊢
    match t, h with
    | x :: t, _ => simp [h1, emit_append]
  · by_cases h2 : c = ch ' '
    · subst h2
      have he : encodeByte (ch ' ') = [ch '+'] := by decide
      rw [he] at h ⊢
      match t, h with
      | x :: t, _ => simp [shouldEscape_space, emit_append]
    · have he : encodeByte c = [ch '%', hexUpper (c.val / 16), hexUpper (c.val % 16)] := by
        simp [encodeByte, h1, h2]
      rw [he] at h ⊢
      match t, h with
      | x :: y :: z :: t, _ =>
        have e1 := emit_append w x (ch '%') (y :: z :: t)
        have e2 := emit_append (w ++ [ch '%']) y (hexUpper (c.val / 16)) (z :: t)
        have e3 := emit_append (w ++ [ch '%'] ++ [hexUpper (c.val / 16)]) z
          (hexUpper (c.val % 16)) t
        have hl := hexDigits_lookup c
        simp at e1 e2 e3 hl
        simp [h1, h2, e1, e2, e3, hl.1, hl.2]

theorem emitted_length_le (s : List Byte) (skip : Nat) :
    (emitted s skip).length ≤ (bytewiseEncode s).length := by
  induction s generalizing skip with
  | nil => simp [emitted, rangeVisited]
  | cons c s ih =>
    rw [bytewiseEncode_cons, List.length_append]
    cases skip with
    | zero =>
      have := ih (runeWidth (c :: s) - 1)
      simp only [emitted, rangeVisited, List.flatMap_cons, List.length_append] at this ⊢
      omega
    | succ k =>
      have := ih k
      simp only [emitted, rangeVisited] at this ⊢
      omega

theorem emitPass_append (s : List Byte) : ∀ (skip : Nat) (w t : List Byte),
    (bytewiseEncode s).length ≤ t.length →
    emitPass s skip ⟨w ++ t, w.length⟩
      = some ⟨(w ++ emitted s skip) ++ t.drop (emitted s skip).length,
          (w ++ emitted s skip).length⟩ := by
  induction s with
  | nil => intro skip w t _; simp [emitPass, emitted, rangeVisited]
  | cons c s ih =>
    intro skip w t h
    rw [bytewiseEncode_cons, List.length_append] at h
    cases skip with
    | zero =>
      have hstep := emitStep_append w t c (by omega)
      have hrest := ih (runeWidth (c :: s) - 1) (w ++ encodeByte c)
        (t.drop (encodeByte c).length) (by rw [List.length_drop]; omega)
      simp only [emitPass, hstep, Option.some_bind, hrest]
      simp [emitted, rangeVisited, List.append_assoc, Nat.add_comm]
    | succ k =>
      have hrest := ih k w t (by omega)
      simp only [emitPass, hrest]
      simp [emitted, rangeVisited]

/-- What `escapeParameterValue` returns on every input: the input itself when no byte is
escaped, otherwise the encodings of the bytes the range loop visits, followed by the
bytes of the buffer that the second pass never writes, still zero. -/
theorem escapeParameterValue_eq (value : List Byte) :
    escapeParameterValue value = some
      (if value.countP percentEncoded = 0 ∧ value.any (fun c => decide (c = ch ' ')) = false
        then value
       else emitted value 0
          ++ List.replicate ((bytewiseEncode value).length - (emitted value 0).length) 0) := by
  unfold escapeParameterValue
  simp only [countPass_eq, Bool.false_or, Nat.zero_add]
  split
  · rfl
  · have h := emitPass_append value 0 [] (List.replicate (bytewiseEncode value).length 0)
      (by simp)
    rw [bytewiseEncode_length] at h
    simp only [List.nil_append, List.length_nil] at h
    rw [h]
    simp [bytewiseEncode_length]

theorem escapeParameterValue_isSome (value : List Byte) :
    ∃ escaped, escapeParameterValue value = some escaped :=
  ⟨_, escapeParameterValue_eq value⟩

theorem escapeParameterValue_map (vs : List View) :
    ∃ es : List (List Byte),
      vs.map (fun v => escapeParameterValue v.Resource) = es.map some := by
  induction vs with
  | nil => exact ⟨[], rfl⟩
  | cons v vs ih =>
    obtain ⟨es, hes⟩ := ih
    obtain ⟨e, he⟩ := escapeParameterValue_isSome v.Resource
    exact ⟨e :: es, by simp [he, hes]⟩

/-! ## The value encoder on ASCII input -/

theorem rangeVisited_of_ascii (s : List Byte) (h : ∀ b ∈ s, b.val < 0x80) :
    rangeVisited s 0 = s := by
  induction s with
  | nil => rfl
  | cons c s ih =>
    have hc : c.val < 0x80 := h c (by simp)
    have hw : runeWidth (c :: s) = 1 := by simp [runeWidth, hc]
    rw [rangeVisited, hw, ih (fun b hb => h b (by simp [hb]))]

theorem emitted_of_ascii (s : List Byte) (h : ∀ b ∈ s, b.val < 0x80) :
    emitted s 0 = bytewiseEncode s := by
  rw [emitted, rangeVisited_of_ascii s h, bytewiseEncode]

theorem bytewiseEncode_of_unescaped (s : List Byte)
    (h1 : s.countP percentEncoded = 0) (h2 : s.any (fun c => decide (c = ch ' ')) = false) :
    bytewiseEncode s = s := by
  rw [List.countP_eq_zero] at h1
  induction s with
  | nil => rfl
  | cons c s ih =>
    simp only [List.any_cons, Bool.or_eq_false_iff, decide_eq_false_iff_not] at h2
    have hp := h1 c (by simp)
    have hs : shouldEscape c = false := by
      simpa [percentEncoded, h2.1] using hp
    rw [bytewiseEncode_cons, ih (fun a ha => h1 a (by simp [ha])) h2.2]
    simp [encodeByte, hs]

/-- On input without a byte from `0x80` on, `escapeParameterValue` is the bytewise
encoder. -/
theorem escapeParameterValue_of_ascii (s : List Byte) (h : ∀ b ∈ s, b.val < 0x80) :
    escapeParameterValue s = some (bytewiseEncode s) := by
  rw [escapeParameterValue_eq]
  split
  · next hc => rw [bytewiseEncode_of_unescaped s hc.1 hc.2]
  · rw [emitted_of_ascii s h]
    simp

/-! ## The value encoder beyond ASCII -/

/-- C1, on the code: for the two-byte input `C3 A9` (the UTF-8 form of one rune) the
first pass sizes the buffer at six bytes, the range loop runs its body at index 0 only,
and the result is `%C3` followed by three zero bytes; percent-decoding it gives
`C3 00 00 00`, not the input. -/
theorem escapeParameterValue_roundtrip_two_byte_rune :
    escapeParameterValue [0xC3, 0xA9] = some [0x25, 0x43, 0x33, 0, 0, 0]
    ∧ percentDecode [0x25, 0x43, 0x33, 0, 0, 0] = some [0xC3, 0, 0, 0]
    ∧ (escapeParameterValue [0xC3, 0xA9]).bind percentDecode ≠ some [0xC3, 0xA9] := by
  decide

/-- C2, on the code: for the three-byte input `E2 82 AC` (the UTF-8 form of one rune)
the bytewise encoding is `%E2%82%AC`, while `escapeParameterValue` returns `%E2` followed
by six zero bytes. -/
theorem escapeParameterValue_bytewise_three_byte_rune :
    bytewiseEncode [0xE2, 0x82, 0xAC] = ascii "%E2%82%AC"
    ∧ escapeParameterValue [0xE2, 0x82, 0xAC] = some [0x25, 0x45, 0x32, 0, 0, 0, 0, 0, 0]
    ∧ escapeParameterValue [0xE2, 0x82, 0xAC] ≠ some (bytewiseEncode [0xE2, 0x82, 0xAC]) := by
  decide

/-! ## The layout compiler -/

theorem layoutAndEmbeddedViewsEach_eq_map (s : List StructuredLayout) :
    layoutAndEmbeddedViewsEach s = s.map StructuredLayout.layoutAndEmbeddedViews := by
  induction s with
  | nil => simp [layoutAndEmbeddedViewsEach]
  | cons c cs ih => simp [layoutAndEmbeddedViewsEach, ih]

theorem ensureOuterStructureAtMost_scaled (r : Compiled) :
    ensureOuterStructureAtMost .scaled (some r) = some (embedInJoin r, r.2.2) := by
  obtain ⟨text, cls, views⟩ := r
  cases cls <;> simp [ensureOuterStructureAtMost, embedInJoin, outerLayoutStructure.toNat,
    parenthesize]

theorem ensureOuterStructureAtMost_atomic (text : List Byte) (cls : outerLayoutStructure)
    (views : List View) :
    ensureOuterStructureAtMost .atomic (some (text, cls, views))
      = some (embedInSized text cls, views) := by
  cases cls <;> simp [ensureOuterStructureAtMost, embedInSized, outerLayoutStructure.toNat,
    parenthesize]

theorem intercalate_cons (sep x : List Byte) (xs : List (List Byte)) :
    List.intercalate sep (x :: xs) = x ++ xs.flatMap (fun y => sep ++ y) := by
  induction xs generalizing x with
  | nil => simp [List.intercalate]
  | cons y ys ih =>
    have h := ih y
    simp only [List.intercalate, List.intersperse_cons₂, List.flatten_cons,
      List.flatMap_cons] at h ⊢
    rw [h]
    simp

theorem joinLoop_succ (joiner : Byte) (rs : List Compiled) :
    ∀ (i : Nat) (joinedLayout : List Byte) (joinedViews : List View),
      joinLoop joiner (rs.map some) (i + 1) joinedLayout joinedViews
        = some (joinedLayout ++ (rs.map embedInJoin).flatMap (fun y => [joiner] ++ y),
            joinedViews ++ rs.flatMap (fun r => r.2.2)) := by
  induction rs with
  | nil => intro i jl jv; simp [joinLoop]
  | cons r rs ih =>
    intro i jl jv
    simp [joinLoop, ensureOuterStructureAtMost_scaled, ih]

theorem joinLayoutsAndEmbeddedViews_many (joiner : Byte) (rs : List Compiled)
    (h : 2 ≤ rs.length) :
    joinLayoutsAndEmbeddedViews joiner (rs.map some)
      = some (List.intercalate [joiner] (rs.map embedInJoin), .joined,
          rs.flatMap (fun r => r.2.2)) := by
  match rs, h with
  | r1 :: r2 :: rs, _ =>
    simp only [joinLayoutsAndEmbeddedViews, List.map_cons, joinLoop,
      ensureOuterStructureAtMost_scaled]
    rw [← List.map_cons, joinLoop_succ, intercalate_cons]
    simp

/-! ## Character classification -/

set_option maxRecDepth 100000 in
/-- C3: `shouldEscape c` is false exactly for the ASCII letters, the ASCII digits, the
four unreserved symbols and the reserved characters other than `&`, `+`, `#`; it is true
for `&`, `+`, `#`, space, `%`, every control byte and every byte from `0x80` on. -/
theorem shouldEscape_classification : ∀ c : Byte,
    (shouldEscape c = false ↔
      (isAsciiLetter c ∨ isAsciiDigit c ∨ c ∈ unreservedSymbols ∨ c ∈ keptReserved))
    ∧ ((c = ch '&' ∨ c = ch '+' ∨ c = ch '#' ∨ c = ch ' ' ∨ c = ch '%' ∨ c.val < 0x20
          ∨ c.val = 0x7F ∨ 0x80 ≤ c.val) → shouldEscape c = true) := by
  unfold isAsciiLetter isAsciiDigit
  decide

/-! ## Joins and scaling -/

/-- C4: a `SideBySide` or `VerticalStack` of at least two children, each of which
compiles, compiles to the children's texts in child order, separated by exactly one `/`
(respectively `-`), a child's text being parenthesized exactly when that child is itself
joined; the result is joined. -/
theorem join_text_and_parentheses (children : List StructuredLayout) (results : List Compiled)
    (hlen : 2 ≤ children.length)
    (hres : children.map StructuredLayout.layoutAndEmbeddedViews = results.map some) :
    (StructuredLayout.SideBySide children).layoutAndEmbeddedViews
        = some (List.intercalate [ch '/'] (results.map embedInJoin), .joined,
            results.flatMap (fun r => r.2.2))
    ∧ (StructuredLayout.VerticalStack children).layoutAndEmbeddedViews
        = some (List.intercalate [ch '-'] (results.map embedInJoin), .joined,
            results.flatMap (fun r => r.2.2)) := by
  have hl : 2 ≤ results.length := by
    have := congrArg List.length hres
    simp at this
    omega
  constructor
  · rw [StructuredLayout.layoutAndEmbeddedViews, layoutAndEmbeddedViewsEach_eq_map, hres,
      joinLayoutsAndEmbeddedViews_many _ _ hl]
  · rw [StructuredLayout.layoutAndEmbeddedViews, layoutAndEmbeddedViewsEach_eq_map, hres,
      joinLayoutsAndEmbeddedViews_many _ _ hl]

/-- C4 at the three layouts of the claim: `(A/B)/C`, `A30/B` and
`(explanation30-map)/source`. -/
theorem join_text_and_parentheses_witness :
    (StructuredLayout.SideBySide
        [.SideBySide [.ViewName (ascii "A"), .ViewName (ascii "B")],
          .ViewName (ascii "C")]).layoutAndEmbeddedViews
      = some (ascii "(A/B)/C", .joined, [])
    ∧ (StructuredLayout.SideBySide
        [.Sized (.ViewName (ascii "A")) 30, .ViewName (ascii "B")]).layoutAndEmbeddedViews
      = some (ascii "A30/B", .joined, [])
    ∧ (StructuredLayout.SideBySide
        [.VerticalStack [.Sized (.ViewName (ascii "explanation")) 30, .ViewName (ascii "map")],
          .ViewName (ascii "source")]).layoutAndEmbeddedViews
      = some (ascii "(explanation30-map)/source", .joined, []) :=
  ⟨(join_text_and_parentheses
      [.SideBySide [.ViewName (ascii "A"), .ViewName (ascii "B")], .ViewName (ascii "C")]
      [(ascii "A/B", .joined, []), (ascii "C", .atomic, [])]
      (by decide) (by decide)).1.trans (by decide),
   (join_text_and_parentheses
      [.Sized (.ViewName (ascii "A")) 30, .ViewName (ascii "B")]
      [(ascii "A30", .scaled, []), (ascii "B", .atomic, [])]
      (by decide) (by decide)).1.trans (by decide),
   (join_text_and_parentheses
      [.VerticalStack [.Sized (.ViewName (ascii "explanation")) 30, .ViewName (ascii "map")],
        .ViewName (ascii "source")]
      [(ascii "explanation30-map", .joined, []), (ascii "source", .atomic, [])]
      (by decide) (by decide)).1.trans (by decide)⟩

set_option maxRecDepth 100000 in
theorem formatUint8_decimal : ∀ p : Fin 256,
    decimalValue (formatUint8 p) = some p.val
      ∧ (formatUint8 p = ascii "0" ∨ (formatUint8 p).head? ≠ some (ch '0')) := by
  decide

/-- C5: when the child compiles to `(text, cls, views)`, `Sized child p` compiles to the
child's text (parenthesized unless the child is atomic) followed by the decimal digits of
`p`, with class scaled and the same views; the digits read back as `p` and have no leading
zero. -/
theorem sized_layout (child : StructuredLayout) (p : Fin 256) (text : List Byte)
    (cls : outerLayoutStructure) (views : List View)
    (h : child.layoutAndEmbeddedViews = some (text, cls, views)) :
    (StructuredLayout.Sized child p).layoutAndEmbeddedViews
        = some (embedInSized text cls ++ formatUint8 p, .scaled, views)
    ∧ decimalValue (formatUint8 p) = some p.val
    ∧ (formatUint8 p = ascii "0" ∨ (formatUint8 p).head? ≠ some (ch '0')) := by
  refine ⟨?_, formatUint8_decimal p⟩
  rw [StructuredLayout.layoutAndEmbeddedViews, h, ensureOuterStructureAtMost_atomic]

/-- C5 at the two layouts of the claim: `(A/B)30` and `(A30)50`. -/
theorem sized_layout_witness :
    (StructuredLayout.Sized
        (.SideBySide [.ViewName (ascii "A"), .ViewName (ascii "B")]) 30).layoutAndEmbeddedViews
      = some (ascii "(A/B)30", .scaled, [])
    ∧ (StructuredLayout.Sized
        (.Sized (.ViewName (ascii "A")) 30) 50).layoutAndEmbeddedViews
      = some (ascii "(A30)50", .scaled, []) :=
  ⟨(sized_layout (.SideBySide [.ViewName (ascii "A"), .ViewName (ascii "B")]) 30
      (ascii "A/B") .joined [] (by decide)).1.trans (by decide),
   (sized_layout (.Sized (.ViewName (ascii "A")) 30) 50
      (ascii "A30") .scaled [] (by decide)).1.trans (by decide)⟩

/-! ## Failure of the layout compiler -/

theorem joinLoop_none (joiner : Byte) (rs : List (Option Compiled)) (h : none ∈ rs) :
    ∀ (i : Nat) (joinedLayout : List Byte) (joinedViews : List View),
      joinLoop joiner rs i joinedLayout joinedViews = none := by
  induction rs with
  | nil => simp at h
  | cons r rs ih =>
    intro i jl jv
    cases r with
    | none => simp [joinLoop, ensureOuterStructureAtMost]
    | some r =>
      have hr : none ∈ rs := by simpa using h
      rw [joinLoop, ensureOuterStructureAtMost_scaled]
      exact ih hr _ _ _

theorem joinLayoutsAndEmbeddedViews_none (joiner : Byte) (rs : List (Option Compiled))
    (h : none ∈ rs) : joinLayoutsAndEmbeddedViews joiner rs = none := by
  match rs, h with
  | [only], h =>
    have : only = none := (List.mem_singleton.mp h).symm
    simp [joinLayoutsAndEmbeddedViews, this]
  | r1 :: r2 :: rs, h =>
    simp only [joinLayoutsAndEmbeddedViews]
    rw [joinLoop_none joiner (r1 :: r2 :: rs) h]

mutual
theorem layoutAndEmbeddedViews_malformed : ∀ t : StructuredLayout,
    (t.noEmptyJoin = false ∨ t.noNil = false) → t.layoutAndEmbeddedViews = none
  | .nil, _ => by rw [StructuredLayout.layoutAndEmbeddedViews]
  | .SideBySide s, h => by
    rw [StructuredLayout.layoutAndEmbeddedViews]
    cases s with
    | nil => simp [layoutAndEmbeddedViewsEach, joinLayoutsAndEmbeddedViews]
    | cons c cs =>
      have h2 : noEmptyJoinEach (c :: cs) = false ∨ noNilEach (c :: cs) = false := by
        rw [StructuredLayout.noEmptyJoin, StructuredLayout.noNil] at h
        simpa using h
      exact joinLayoutsAndEmbeddedViews_none _ _
        (layoutAndEmbeddedViewsEach_malformed (c :: cs) h2)
  | .VerticalStack s, h => by
    rw [StructuredLayout.layoutAndEmbeddedViews]
    cases s with
    | nil => simp [layoutAndEmbeddedViewsEach, joinLayoutsAndEmbeddedViews]
    | cons c cs =>
      have h2 : noEmptyJoinEach (c :: cs) = false ∨ noNilEach (c :: cs) = false := by
        rw [StructuredLayout.noEmptyJoin, StructuredLayout.noNil] at h
        simpa using h
      exact joinLayoutsAndEmbeddedViews_none _ _
        (layoutAndEmbeddedViewsEach_malformed (c :: cs) h2)
  | .Sized inner p, h => by
    rw [StructuredLayout.noEmptyJoin, StructuredLayout.noNil] at h
    rw [StructuredLayout.layoutAndEmbeddedViews, layoutAndEmbeddedViews_malformed inner h]
    simp [ensureOuterStructureAtMost]
  | .ViewName n, h => by simp [StructuredLayout.noEmptyJoin, StructuredLayout.noNil] at h
  | .View v, h => by simp [StructuredLayout.noEmptyJoin, StructuredLayout.noNil] at h
theorem layoutAndEmbeddedViewsEach_malformed : ∀ s : List StructuredLayout,
    (noEmptyJoinEach s = false ∨ noNilEach s = false) →
    none ∈ layoutAndEmbeddedViewsEach s
  | [], h => by simp [noEmptyJoinEach, noNilEach] at h
  | c :: cs, h => by
    rw [layoutAndEmbeddedViewsEach]
    by_cases hc : c.noEmptyJoin = false ∨ c.noNil = false
    · simp [layoutAndEmbeddedViews_malformed c hc]
    · have h2 : noEmptyJoinEach cs = false ∨ noNilEach cs = false := by
        simp only [not_or, Bool.not_eq_false] at hc
        rw [noEmptyJoinEach, noNilEach, hc.1, hc.2] at h
        simpa using h
      exact List.mem_cons_of_mem _ (layoutAndEmbeddedViewsEach_malformed cs h2)
end

/-! ## Flattened view order -/

theorem joinLayoutsAndEmbeddedViews_views (joiner : Byte) (rs : List Compiled) (h : rs ≠ []) :
    ∃ text cls, joinLayoutsAndEmbeddedViews joiner (rs.map some)
      = some (text, cls, rs.flatMap (fun r => r.2.2)) := by
  match rs, h with
  | [r], _ => exact ⟨r.1, r.2.1, by simp [joinLayoutsAndEmbeddedViews]⟩
  | r1 :: r2 :: rs, _ =>
    exact ⟨_, _, joinLayoutsAndEmbeddedViews_many joiner (r1 :: r2 :: rs) (by simp)⟩

mutual
theorem layoutAndEmbeddedViews_viewLeaves : ∀ t : StructuredLayout, t.noEmptyJoin = true →
    t.noNil = true → ∃ text cls, t.layoutAndEmbeddedViews = some (text, cls, t.viewLeaves)
  | .nil, _, hn => by simp [StructuredLayout.noNil] at hn
  | .SideBySide s, h, hn => by
    simp only [StructuredLayout.noEmptyJoin, Bool.and_eq_true, Bool.not_eq_true',
      List.isEmpty_eq_false] at h
    rw [StructuredLayout.noNil] at hn
    obtain ⟨rs, hrs, hv⟩ := layoutAndEmbeddedViewsEach_viewLeaves s h.2 hn
    have hne : rs ≠ [] := by
      intro hnil
      subst hnil
      cases s with
      | nil => exact h.1 rfl
      | cons c cs => simp [layoutAndEmbeddedViewsEach] at hrs
    obtain ⟨text, cls, hj⟩ := joinLayoutsAndEmbeddedViews_views (ch '/') rs hne
    exact ⟨text, cls, by rw [StructuredLayout.layoutAndEmbeddedViews, hrs, hj,
      StructuredLayout.viewLeaves, hv]⟩
  | .VerticalStack s, h, hn => by
    simp only [StructuredLayout.noEmptyJoin, Bool.and_eq_true, Bool.not_eq_true',
      List.isEmpty_eq_false] at h
    rw [StructuredLayout.noNil] at hn
    obtain ⟨rs, hrs, hv⟩ := layoutAndEmbeddedViewsEach_viewLeaves s h.2 hn
    have hne : rs ≠ [] := by
      intro hnil
      subst hnil
      cases s with
      | nil => exact h.1 rfl
      | cons c cs => simp [layoutAndEmbeddedViewsEach] at hrs
    obtain ⟨text, cls, hj⟩ := joinLayoutsAndEmbeddedViews_views (ch '-') rs hne
    exact ⟨text, cls, by rw [StructuredLayout.layoutAndEmbeddedViews, hrs, hj,
      StructuredLayout.viewLeaves, hv]⟩
  | .Sized inner p, h, hn => by
    simp only [StructuredLayout.noEmptyJoin] at h
    rw [StructuredLayout.noNil] at hn
    obtain ⟨text, cls, hi⟩ := layoutAndEmbeddedViews_viewLeaves inner h hn
    exact ⟨_, _, by rw [StructuredLayout.layoutAndEmbeddedViews, hi,
      ensureOuterStructureAtMost_atomic, StructuredLayout.viewLeaves]⟩
  | .ViewName n, _, _ => ⟨n, .atomic, by
      rw [StructuredLayout.layoutAndEmbeddedViews, StructuredLayout.viewLeaves]⟩
  | .View v, _, _ => ⟨v.Name, .atomic, by
      rw [StructuredLayout.layoutAndEmbeddedViews, StructuredLayout.viewLeaves]⟩
theorem layoutAndEmbeddedViewsEach_viewLeaves : ∀ s : List StructuredLayout,
    noEmptyJoinEach s = true → noNilEach s = true →
    ∃ rs : List Compiled, layoutAndEmbeddedViewsEach s = rs.map some
      ∧ rs.flatMap (fun r => r.2.2) = viewLeavesEach s
  | [], _, _ => ⟨[], by simp [layoutAndEmbeddedViewsEach], by simp [viewLeavesEach]⟩
  | c :: cs, h, hn => by
    simp only [noEmptyJoinEach, Bool.and_eq_true] at h
    simp only [noNilEach, Bool.and_eq_true] at hn
    obtain ⟨text, cls, hc⟩ := layoutAndEmbeddedViews_viewLeaves c h.1 hn.1
    obtain ⟨rs, hrs, hv⟩ := layoutAndEmbeddedViewsEach_viewLeaves cs h.2 hn.2
    exact ⟨(text, cls, c.viewLeaves) :: rs, by simp [layoutAndEmbeddedViewsEach, hc, hrs],
      by simp [viewLeavesEach, hv]⟩
end

mutual
theorem viewLeaves_length : ∀ t : StructuredLayout, t.viewLeaves.length = t.viewLeafCount
  | .nil => by simp [StructuredLayout.viewLeaves, StructuredLayout.viewLeafCount]
  | .SideBySide s => by
    rw [StructuredLayout.viewLeaves, StructuredLayout.viewLeafCount, viewLeavesEach_length s]
  | .VerticalStack s => by
    rw [StructuredLayout.viewLeaves, StructuredLayout.viewLeafCount, viewLeavesEach_length s]
  | .Sized inner _ => by
    rw [StructuredLayout.viewLeaves, StructuredLayout.viewLeafCount, viewLeaves_length inner]
  | .ViewName _ => by simp [StructuredLayout.viewLeaves, StructuredLayout.viewLeafCount]
  | .View _ => by simp [StructuredLayout.viewLeaves, StructuredLayout.viewLeafCount]
theorem viewLeavesEach_length : ∀ s : List StructuredLayout,
    (viewLeavesEach s).length = viewLeafCountEach s
  | [] => by simp [viewLeavesEach, viewLeafCountEach]
  | c :: cs => by
    rw [viewLeavesEach, viewLeafCountEach, List.length_append, viewLeaves_length c,
      viewLeavesEach_length cs]
end

theorem layoutAndEmbeddedViews_wellFormed (t : StructuredLayout) (r : Compiled)
    (h : t.layoutAndEmbeddedViews = some r) : t.noEmptyJoin = true ∧ t.noNil = true := by
  by_contra hc
  have hm : t.noEmptyJoin = false ∨ t.noNil = false := by
    cases h1 : t.noEmptyJoin <;> cases h2 : t.noNil <;> simp_all
  rw [layoutAndEmbeddedViews_malformed t hm] at h
  cases h

theorem layoutAndEmbeddedViews_views (t : StructuredLayout) (text : List Byte)
    (cls : outerLayoutStructure) (views : List View)
    (h : t.layoutAndEmbeddedViews = some (text, cls, views)) : views = t.viewLeaves := by
  obtain ⟨h1, h2⟩ := layoutAndEmbeddedViews_wellFormed t _ h
  obtain ⟨text2, cls2, h3⟩ := layoutAndEmbeddedViews_viewLeaves t h1 h2
  rw [h3] at h
  simp only [Option.some.injEq, Prod.mk.injEq] at h
  exact h.2.2.symm

/-- C6: for a tree without an empty join, whenever the compiler returns, its view list is
the `View` leaves of the tree read left to right, depth first, so the list has as many
elements as the tree has `View` leaves; and the compiler does return, with that list, when
no node of the tree is nil. -/
theorem flattened_view_order (t : StructuredLayout) (h : t.noEmptyJoin = true) :
    (∀ text cls views, t.layoutAndEmbeddedViews = some (text, cls, views) →
        views = t.viewLeaves ∧ views.length = t.viewLeafCount)
    ∧ (t.noNil = true →
        ∃ text cls views, t.layoutAndEmbeddedViews = some (text, cls, views)
          ∧ views = t.viewLeaves ∧ views.length = t.viewLeafCount) := by
  constructor
  · intro text cls views hc
    have hv := layoutAndEmbeddedViews_views t text cls views hc
    exact ⟨hv, by rw [hv, viewLeaves_length]⟩
  · intro hn
    obtain ⟨text, cls, hc⟩ := layoutAndEmbeddedViews_viewLeaves t h hn
    exact ⟨text, cls, t.viewLeaves, hc, rfl, viewLeaves_length t⟩

/-- C6 at the layout of the introduction example: the views come out in the order
`explanation`, `map`, `source`. -/
theorem flattened_view_order_witness :
    ∃ text cls views,
      (StructuredLayout.SideBySide
        [.VerticalStack
          [.Sized (.View (Markdown (ascii "explanation") (ascii "https://e.md"))) 30,
            .View (Map (ascii "map") (ascii "https://m.json"))],
          .View (JSON (ascii "source") (ascii "https://m.json"))]).layoutAndEmbeddedViews
        = some (text, cls, views)
      ∧ views = [Markdown (ascii "explanation") (ascii "https://e.md"),
          Map (ascii "map") (ascii "https://m.json"),
          JSON (ascii "source") (ascii "https://m.json")]
      ∧ views.length = 3 :=
  (flattened_view_order
    (.SideBySide
      [.VerticalStack
        [.Sized (.View (Markdown (ascii "explanation") (ascii "https://e.md"))) 30,
          .View (Map (ascii "map") (ascii "https://m.json"))],
        .View (JSON (ascii "source") (ascii "https://m.json"))])
    (by decide)).2 (by decide)

/-! ## URL assembly -/

theorem urlLoop_written (vs : List View) : ∀ (es : List (List Byte)) (b : List Byte),
    vs.map (fun v => escapeParameterValue v.Resource) = es.map some →
    urlLoop vs b true
      = some (b ++ (List.zipWith viewParameter vs es).flatMap (fun p => [ch '&'] ++ p)) := by
  induction vs with
  | nil => intro es b _; simp [urlLoop]
  | cons v vs ih =>
    intro es b hes
    match es, hes with
    | e :: es, hes =>
      simp only [List.map_cons, List.cons.injEq] at hes
      rw [urlLoop, hes.1]
      simp only [if_true]
      rw [ih es _ hes.2]
      by_cases ht : v.Type_ = [] <;> simp [viewParameter, ht]

theorem urlLoop_first (vs : List View) (es : List (List Byte))
    (hes : vs.map (fun v => escapeParameterValue v.Resource) = es.map some) :
    urlLoop vs urlPrefix false
      = some (urlPrefix ++ List.intercalate [ch '&'] (List.zipWith viewParameter vs es)) := by
  match vs, es, hes with
  | [], [], _ => simp [urlLoop, List.intercalate]
  | v :: vs, e :: es, hes =>
    simp only [List.map_cons, List.cons.injEq] at hes
    rw [urlLoop, hes.1]
    simp only [Bool.false_eq_true, if_false]
    rw [urlLoop_written vs es _ hes.2, List.zipWith_cons_cons, intercalate_cons]
    by_cases ht : v.Type_ = [] <;> simp [viewParameter, ht]

theorem Layout_URL_eq (l : Layout) (vs : List View) (es : List (List Byte))
    (hes : vs.map (fun v => escapeParameterValue v.Resource) = es.map some) :
    Layout.URL l vs
      = some (urlPrefix ++ List.intercalate [ch '&']
          (layoutParameter l ++ List.zipWith viewParameter vs es)) := by
  unfold Layout.URL layoutParameter
  by_cases hl : l = []
  · simpa [hl] using urlLoop_first vs es hes
  · simp only [ne_eq, hl, not_false_eq_true, if_true, List.singleton_append]
    rw [urlLoop_written vs es _ hes, intercalate_cons]
    simp [urlPrefix]

/-- C7: `Layout.URL l vs` returns the fixed prefix followed by the parameters joined by
`&`: `layout=l` when `l` is non-empty, then for each view, in order, its name, `=`, its
type and `:` when the type is non-empty, and its encoded resource. The second part is
the URL of the two-IFrame example. -/
theorem layout_URL_assembly :
    (∀ (l : Layout) (vs : List View), ∃ es : List (List Byte),
      vs.map (fun v => escapeParameterValue v.Resource) = es.map some
      ∧ Layout.URL l vs
          = some (ascii "https://flexivis.infrastruktur.link#" ++ List.intercalate [ch '&']
              ((if l ≠ [] then [ascii "layout=" ++ l] else [])
                ++ List.zipWith
                  (fun v e =>
                    v.Name ++ [ch '='] ++ (if v.Type_ ≠ [] then v.Type_ ++ [ch ':'] else [])
                      ++ e)
                  vs es)))
    ∧ ∃ va vb, IFrame (ascii "a") (ascii "https://wikipedia.org") = some va
        ∧ IFrame (ascii "b") (ascii "https://example.com") = some vb
        ∧ URL (.SideBySide [.View va, .View vb])
          = some (ascii ("https://flexivis.infrastruktur.link#layout=a/b"
              ++ "&a=https://wikipedia.org&b=https://example.com")) := by
  refine ⟨fun l vs => ?_, _, _, rfl, rfl, by decide⟩
  obtain ⟨es, hes⟩ := escapeParameterValue_map vs
  exact ⟨es, hes, Layout_URL_eq l vs es hes⟩

/-- C8: when the compiled layout text is exactly `url`, the URL is the fixed prefix
followed by the view parameters alone, joined by `&`; for a single root view named `url`
it is the prefix followed by `url=`, the type and `:` when the type is non-empty, and the
encoded resource. -/
theorem url_layout_omitted :
    (∀ (t : StructuredLayout) (cls : outerLayoutStructure) (views : List View),
      t.layoutAndEmbeddedViews = some (ascii "url", cls, views) →
      ∃ es : List (List Byte),
        views.map (fun v => escapeParameterValue v.Resource) = es.map some
        ∧ URL t = some (ascii "https://flexivis.infrastruktur.link#"
            ++ List.intercalate [ch '&'] (List.zipWith viewParameter views es)))
    ∧ (∀ (type resource : List Byte), ∃ e, escapeParameterValue resource = some e
        ∧ URL (.View ⟨ascii "url", type, resource⟩)
          = some (ascii "https://flexivis.infrastruktur.link#" ++ ascii "url="
              ++ (if type ≠ [] then type ++ [ch ':'] else []) ++ e)) := by
  have key : ∀ (t : StructuredLayout) (cls : outerLayoutStructure) (views : List View),
      t.layoutAndEmbeddedViews = some (ascii "url", cls, views) →
      ∀ es : List (List Byte),
        views.map (fun v => escapeParameterValue v.Resource) = es.map some →
        URL t = some (urlPrefix
            ++ List.intercalate [ch '&'] (List.zipWith viewParameter views es)) := by
    intro t cls views h es hes
    have := Layout_URL_eq [] views es hes
    simpa [URL, h, layoutParameter] using this
  constructor
  · intro t cls views h
    obtain ⟨es, hes⟩ := escapeParameterValue_map views
    exact ⟨es, hes, key t cls views h es hes⟩
  · intro type resource
    obtain ⟨e, he⟩ := escapeParameterValue_isSome resource
    refine ⟨e, he, ?_⟩
    have := key (.View ⟨ascii "url", type, resource⟩) .atomic [⟨ascii "url", type, resource⟩]
      (by rw [StructuredLayout.layoutAndEmbeddedViews]) [e] (by simp [he])
    have hk : ascii "url=" = ascii "url" ++ [ch '='] := by decide
    rw [this, hk]
    simp [urlPrefix, viewParameter, List.intercalate]

/-- C8 at the single-view example: a `vega` view named `url` over inline content. -/
theorem url_layout_omitted_witness :
    URL (.View (Vega (ascii "url") (Inline (ascii "a b"))))
      = some (ascii "https://flexivis.infrastruktur.link#url=vega:inline:a+b") := by
  obtain ⟨es, hes, hu⟩ := url_layout_omitted.1
    (.View (Vega (ascii "url") (Inline (ascii "a b")))) .atomic
    [Vega (ascii "url") (Inline (ascii "a b"))] (by decide)
  have he : escapeParameterValue (Vega (ascii "url") (Inline (ascii "a b"))).Resource
      = some (ascii "inline:a+b") := by decide
  match es, hes with
  | [e], hes =>
    simp only [List.map_cons, List.map_nil, he, List.cons.injEq, Option.some.injEq,
      and_true] at hes
    subst hes
    exact hu.trans (by decide)

/-- C9, refuted as stated: the bare view name with empty text has no empty join and its
layout text, the empty string, is not `url`; its URL is the fixed prefix alone, which does
not begin with the prefix followed by `layout=`. -/
theorem layout_parameter_first_counterexample :
    (StructuredLayout.ViewName []).noEmptyJoin = true
    ∧ (StructuredLayout.ViewName []).layoutAndEmbeddedViews = some ([], .atomic, [])
    ∧ ([] : List Byte) ≠ ascii "url"
    ∧ URL (.ViewName []) = some (ascii "https://flexivis.infrastruktur.link#")
    ∧ ¬ ∃ rest, URL (.ViewName [])
        = some (ascii "https://flexivis.infrastruktur.link#layout=" ++ [] ++ rest) := by
  refine ⟨by decide, by decide, by decide, by decide, ?_⟩
  rintro ⟨rest, h⟩
  have hu : URL (.ViewName []) = some (ascii "https://flexivis.infrastruktur.link#") := by
    decide
  rw [hu] at h
  have := congrArg (fun o => (o.map List.length).getD 0) h
  simp [ascii] at this

/-- C9, amended: when the compiled layout text is neither `url` nor empty, the URL is the
fixed prefix followed by the `&`-joined parameters of which `layout=` and the text is the
first, the view parameters following; so the URL begins with the prefix, `layout=` and
the text. -/
theorem layout_parameter_first (t : StructuredLayout) (text : List Byte)
    (cls : outerLayoutStructure) (views : List View)
    (hc : t.layoutAndEmbeddedViews = some (text, cls, views))
    (hurl : text ≠ ascii "url") (hne : text ≠ []) :
    ∃ es : List (List Byte),
      views.map (fun v => escapeParameterValue v.Resource) = es.map some
      ∧ URL t = some (ascii "https://flexivis.infrastruktur.link#"
          ++ List.intercalate [ch '&']
              ((ascii "layout=" ++ text) :: List.zipWith viewParameter views es))
      ∧ ∃ rest, URL t
          = some (ascii "https://flexivis.infrastruktur.link#layout=" ++ text ++ rest) := by
  obtain ⟨es, hes⟩ := escapeParameterValue_map views
  have h := Layout_URL_eq text views es hes
  have hu : URL t = Layout.URL text views := by simp [URL, hc, hurl]
  refine ⟨es, hes, ?_, ?_⟩
  · rw [hu, h]
    simp [layoutParameter, hne, urlPrefix]
  · rw [hu, h, layoutParameter]
    simp only [ne_eq, hne, not_false_eq_true, if_true, List.singleton_append, intercalate_cons]
    have hp : ascii "https://flexivis.infrastruktur.link#layout="
        = urlPrefix ++ ascii "layout=" := by decide
    exact ⟨(List.zipWith viewParameter views es).flatMap (fun y => [ch '&'] ++ y),
      by rw [hp]; simp [List.append_assoc]⟩

/-- C9, amended, at the two-view example: the URL begins with `layout=a/b`. -/
theorem layout_parameter_first_witness :
    ∃ rest, URL (.SideBySide [.View (Text (ascii "a") (ascii "x y")), .ViewName (ascii "b")])
      = some (ascii "https://flexivis.infrastruktur.link#layout=" ++ ascii "a/b" ++ rest) :=
  (layout_parameter_first
    (.SideBySide [.View (Text (ascii "a") (ascii "x y")), .ViewName (ascii "b")])
    (ascii "a/b") .joined [Text (ascii "a") (ascii "x y")]
    (by decide) (by decide) (by decide)).choose_spec.2.2

/-! ## Degenerate joins -/

theorem URL_isSome (t : StructuredLayout) (r : Compiled)
    (h : t.layoutAndEmbeddedViews = some r) : ∃ u, URL t = some u := by
  obtain ⟨text, cls, views⟩ := r
  obtain ⟨es, hes⟩ := escapeParameterValue_map views
  exact ⟨_, by simp only [URL, h]; exact Layout_URL_eq _ views es hes⟩

/-- C10: when `c` compiles to a triple, `SideBySide{c}` and `VerticalStack{c}` compile to
that same triple, and the three URLs are one and the same string. -/
theorem single_child_join (c : StructuredLayout) (r : Compiled)
    (h : c.layoutAndEmbeddedViews = some r) :
    (StructuredLayout.SideBySide [c]).layoutAndEmbeddedViews = some r
    ∧ (StructuredLayout.VerticalStack [c]).layoutAndEmbeddedViews = some r
    ∧ ∃ u, URL c = some u ∧ URL (.SideBySide [c]) = some u
        ∧ URL (.VerticalStack [c]) = some u := by
  have h1 : (StructuredLayout.SideBySide [c]).layoutAndEmbeddedViews = some r := by
    simp [StructuredLayout.layoutAndEmbeddedViews, layoutAndEmbeddedViewsEach,
      joinLayoutsAndEmbeddedViews, h]
  have h2 : (StructuredLayout.VerticalStack [c]).layoutAndEmbeddedViews = some r := by
    simp [StructuredLayout.layoutAndEmbeddedViews, layoutAndEmbeddedViewsEach,
      joinLayoutsAndEmbeddedViews, h]
  refine ⟨h1, h2, ?_⟩
  obtain ⟨u, hu⟩ := URL_isSome c r h
  refine ⟨u, hu, ?_, ?_⟩
  · rw [← hu]; simp only [URL, h1, h]
  · rw [← hu]; simp only [URL, h2, h]

/-- C10 at a join that is itself the single child: `SideBySide{SideBySide{a, b}}` and
`VerticalStack{SideBySide{a, b}}` compile to `a/b`, without parentheses. -/
theorem single_child_join_witness :
    (StructuredLayout.SideBySide
        [.SideBySide [.ViewName (ascii "a"), .ViewName (ascii "b")]]).layoutAndEmbeddedViews
      = some (ascii "a/b", .joined, [])
    ∧ (StructuredLayout.VerticalStack
        [.SideBySide [.ViewName (ascii "a"), .ViewName (ascii "b")]]).layoutAndEmbeddedViews
      = some (ascii "a/b", .joined, []) :=
  ⟨(single_child_join (.SideBySide [.ViewName (ascii "a"), .ViewName (ascii "b")])
      (ascii "a/b", .joined, []) (by decide)).1,
   (single_child_join (.SideBySide [.ViewName (ascii "a"), .ViewName (ascii "b")])
      (ascii "a/b", .joined, []) (by decide)).2.1⟩


/-! ## Which trees compile -/

theorem URL_eq_none_iff (t : StructuredLayout) :
    URL t = none ↔ t.layoutAndEmbeddedViews = none := by
  constructor
  · intro h
    cases hc : t.layoutAndEmbeddedViews with
    | none => rfl
    | some r =>
      obtain ⟨u, hu⟩ := URL_isSome t r hc
      rw [hu] at h
      cases h
  · intro h
    simp [URL, h]

/-- C11, refuted as stated: `Sized{InnerLayout: nil, Percentage: 30}` holds no join at
all, so no empty one, yet compiling it and building its URL fail: the method call on the
nil inner layout panics. -/
theorem compile_fails_without_empty_join_counterexample :
    (StructuredLayout.Sized .nil 30).noEmptyJoin = true
    ∧ (StructuredLayout.Sized .nil 30).layoutAndEmbeddedViews = none
    ∧ URL (.Sized .nil 30) = none
    ∧ ¬ ((StructuredLayout.Sized .nil 30).layoutAndEmbeddedViews = none
          ↔ (StructuredLayout.Sized .nil 30).noEmptyJoin = false) := by
  decide

/-- C11, amended: compiling a tree, and building its URL, fails exactly when the tree
holds, at the root or at any depth, a `SideBySide` or `VerticalStack` without children or
a nil node; when every join has a child and no node is nil, both return a value. -/
theorem compile_fails_iff_empty_join_or_nil : ∀ t : StructuredLayout,
    (t.layoutAndEmbeddedViews = none ↔ (t.noEmptyJoin = false ∨ t.noNil = false))
    ∧ (URL t = none ↔ (t.noEmptyJoin = false ∨ t.noNil = false))
    ∧ (t.noEmptyJoin = true → t.noNil = true →
        ∃ r u, t.layoutAndEmbeddedViews = some r ∧ URL t = some u) := by
  intro t
  have hsome : t.noEmptyJoin = true → t.noNil = true →
      ∃ r, t.layoutAndEmbeddedViews = some r := by
    intro h hn
    obtain ⟨text, cls, hc⟩ := layoutAndEmbeddedViews_viewLeaves t h hn
    exact ⟨_, hc⟩
  have hiff : t.layoutAndEmbeddedViews = none
      ↔ (t.noEmptyJoin = false ∨ t.noNil = false) := by
    constructor
    · intro h
      by_contra hc
      simp only [not_or, Bool.not_eq_false] at hc
      obtain ⟨r, hr⟩ := hsome hc.1 hc.2
      rw [hr] at h
      cases h
    · exact layoutAndEmbeddedViews_malformed t
  refine ⟨hiff, (URL_eq_none_iff t).trans hiff, fun h hn => ?_⟩
  obtain ⟨r, hr⟩ := hsome h hn
  obtain ⟨u, hu⟩ := URL_isSome t r hr
  exact ⟨r, u, hr, hu⟩

/-- C11, amended, at five trees: an empty join at the root, one two levels down, a nil
element of a join and a nil root fail; a tree whose joins all have children and that holds
no nil node gives a URL. -/
theorem compile_fails_iff_empty_join_or_nil_witness :
    URL (.SideBySide []) = none
    ∧ URL (.SideBySide [.ViewName (ascii "a"),
        .Sized (.VerticalStack [.ViewName (ascii "b"), .VerticalStack []]) 50]) = none
    ∧ URL (.SideBySide [.ViewName (ascii "a"), .nil]) = none
    ∧ URL .nil = none
    ∧ URL (.SideBySide [.ViewName (ascii "a"),
        .Sized (.VerticalStack [.ViewName (ascii "b")]) 50])
      = some (ascii "https://flexivis.infrastruktur.link#layout=a/b50") :=
  ⟨(compile_fails_iff_empty_join_or_nil _).2.1.mpr (Or.inl (by decide)),
   (compile_fails_iff_empty_join_or_nil _).2.1.mpr (Or.inl (by decide)),
   (compile_fails_iff_empty_join_or_nil _).2.1.mpr (Or.inr (by decide)),
   (compile_fails_iff_empty_join_or_nil _).2.1.mpr (Or.inr (by decide)),
   by decide⟩

/-! ## The raw-content constructor -/

theorem isPrefixOf_scheme (p : List Byte) (hp : ch ':' ∉ p) : ∀ url : List Byte,
    (p ++ [ch ':']).isPrefixOf url = true ↔ scheme url = some p := by
  induction p with
  | nil =>
    intro url
    cases url with
    | nil => simp [scheme]
    | cons c rest =>
      by_cases hc : c = ch ':'
      · simp [scheme, hc, List.isPrefixOf]
      · have hc2 : ¬ ch ':' = c := fun h => hc h.symm
        cases hs : scheme rest <;> simp [scheme, hc, hc2, List.isPrefixOf, hs]
  | cons a p ih =>
    intro url
    have ha : a ≠ ch ':' := fun h => hp (by simp [h])
    have hp2 : ch ':' ∉ p := fun h => hp (by simp [h])
    cases url with
    | nil => simp [scheme]
    | cons c rest =>
      by_cases hc : c = ch ':'
      · subst hc
        simp [scheme, List.isPrefixOf, ha]
      · have := ih hp2 rest
        cases hs : scheme rest with
        | none =>
          simp only [hs] at this
          simp [scheme, hc, List.isPrefixOf, hs]
          intro _
          simpa using this
        | some q =>
          simp only [hs, Option.some.injEq] at this
          have this2 : (p ++ [ch ':'] <+: rest) ↔ q = p := by simpa using this
          simp [scheme, hc, List.isPrefixOf, hs]
          rw [this2]
          constructor <;> rintro ⟨h1, h2⟩ <;> exact ⟨h1.symm, h2⟩

/-- C12: `IFrame name url` fails exactly when the scheme of `url`, the text before its
first `:`, is none of `https`, `http`, `file`; otherwise it returns the view with that
name, the empty type and `url` itself as resource. -/
theorem IFrame_scheme_check : ∀ (name : ViewName) (url : List Byte),
    (IFrame name url = none ↔
      (scheme url ≠ some (ascii "https") ∧ scheme url ≠ some (ascii "http")
        ∧ scheme url ≠ some (ascii "file")))
    ∧ ((scheme url = some (ascii "https") ∨ scheme url = some (ascii "http")
          ∨ scheme url = some (ascii "file")) →
        IFrame name url = some ⟨name, [], url⟩) := by
  intro name url
  have h1 := isPrefixOf_scheme (ascii "https") (by decide) url
  have h2 := isPrefixOf_scheme (ascii "http") (by decide) url
  have h3 := isPrefixOf_scheme (ascii "file") (by decide) url
  have e1 : ascii "https:" = ascii "https" ++ [ch ':'] := by decide
  have e2 : ascii "http:" = ascii "http" ++ [ch ':'] := by decide
  have e3 : ascii "file:" = ascii "file" ++ [ch ':'] := by decide
  unfold IFrame hasPrefix
  rw [e1, e2, e3]
  by_cases c1 : scheme url = some (ascii "https")
  · simp [h1.mpr c1, c1]
  · by_cases c2 : scheme url = some (ascii "http")
    · simp [h2.mpr c2, c2]
    · by_cases c3 : scheme url = some (ascii "file")
      · simp [h3.mpr c3, c3]
      · have n1 : (ascii "https" ++ [ch ':']).isPrefixOf url = false := by
          exact Bool.eq_false_iff.mpr fun h => c1 (h1.mp h)
        have n2 : (ascii "http" ++ [ch ':']).isPrefixOf url = false := by
          exact Bool.eq_false_iff.mpr fun h => c2 (h2.mp h)
        have n3 : (ascii "file" ++ [ch ':']).isPrefixOf url = false := by
          exact Bool.eq_false_iff.mpr fun h => c3 (h3.mp h)
        simp [n1, n2, n3, c1, c2, c3]

/-- C12 at four URLs: `https`, `http` and `file` are accepted, `ftp` and a string without
a scheme are refused, and so is `httpsx:`, whose scheme only begins with `https`. -/
theorem IFrame_scheme_check_witness :
    IFrame (ascii "a") (ascii "https://wikipedia.org")
      = some ⟨ascii "a", [], ascii "https://wikipedia.org"⟩
    ∧ IFrame (ascii "a") (ascii "file://results.html")
      = some ⟨ascii "a", [], ascii "file://results.html"⟩
    ∧ IFrame (ascii "a") (ascii "ftp://example.com") = none
    ∧ IFrame (ascii "a") (ascii "example.com") = none
    ∧ IFrame (ascii "a") (ascii "httpsx://example.com") = none :=
  ⟨(IFrame_scheme_check _ _).2 (Or.inl (by decide)),
   (IFrame_scheme_check _ _).2 (Or.inr (Or.inr (by decide))),
   (IFrame_scheme_check _ _).1.mpr (by decide),
   (IFrame_scheme_check _ _).1.mpr (by decide),
   (IFrame_scheme_check _ _).1.mpr (by decide)⟩

/-! ## The value encoder on strings that need no escaping -/

set_option maxRecDepth 100000 in
theorem shouldEscape_of_class : ∀ c : Byte,
    isAsciiLetter c ∨ isAsciiDigit c ∨ c ∈ unreservedSymbols → shouldEscape c = false := by
  unfold isAsciiLetter isAsciiDigit
  decide

theorem escapeParameterValue_of_unescaped (s : List Byte)
    (h : ∀ b ∈ s, shouldEscape b = false) : escapeParameterValue s = some s := by
  rw [escapeParameterValue_eq]
  have h1 : s.countP percentEncoded = 0 := by
    rw [List.countP_eq_zero]
    intro b hb
    simp [percentEncoded, h b hb]
  have h2 : s.any (fun c => decide (c = ch ' ')) = false := by
    rw [List.any_eq_false]
    intro b hb
    have : b ≠ ch ' ' := fun hbs => by
      have := h b hb
      rw [hbs, shouldEscape_space] at this
      cases this
    simpa using this
  simp [h1, h2]

/-- C13: `escapeParameterValue` returns its input unchanged when no byte of it is
escaped, and so on every string of ASCII letters, ASCII digits and `- _ . ~`. -/
theorem escape_identity_on_safe :
    (∀ s : List Byte, (∀ b ∈ s, shouldEscape b = false) → escapeParameterValue s = some s)
    ∧ (∀ s : List Byte,
        (∀ b ∈ s, isAsciiLetter b ∨ isAsciiDigit b ∨ b ∈ unreservedSymbols) →
        escapeParameterValue s = some s) :=
  ⟨escapeParameterValue_of_unescaped,
   fun s h => escapeParameterValue_of_unescaped s fun b hb => shouldEscape_of_class b (h b hb)⟩

set_option maxRecDepth 100000 in
/-- C13 at a URL, whose bytes are all left alone, and at a string of letters, digits and
unreserved symbols. -/
theorem escape_identity_on_safe_witness :
    escapeParameterValue (ascii "https://example.com/a?b=(c)")
      = some (ascii "https://example.com/a?b=(c)")
    ∧ escapeParameterValue (ascii "Az09-_.~") = some (ascii "Az09-_.~") :=
  ⟨escape_identity_on_safe.1 _ (by decide), escape_identity_on_safe.2 _
    (by simp only [isAsciiLetter, isAsciiDigit]; decide)⟩

/-! ## The shape of the encoder's result -/

theorem escapeParameterValue_shape (s : List Byte) :
    ∃ k, escapeParameterValue s
      = some ((encodedBytes s).flatMap encodeByte ++ List.replicate k 0) := by
  rw [escapeParameterValue_eq]
  unfold encodedBytes
  split
  · next h =>
    refine ⟨0, ?_⟩
    have := bytewiseEncode_of_unescaped s h.1 h.2
    rw [bytewiseEncode] at this
    simp [this]
  · exact ⟨_, rfl⟩

theorem runeWidth_continuation (c : Byte) (rest : List Byte) :
    (rest.take (runeWidth (c :: rest) - 1)).all isContinuation = true := by
  unfold runeWidth
  repeat' split
  all_goals simp_all

theorem rangeVisited_filter (p : Byte → Bool) (hp : ∀ b, isContinuation b = true → p b = false)
    (s : List Byte) : ∀ skip : Nat, (s.take skip).all isContinuation = true →
      (rangeVisited s skip).filter p = s.filter p := by
  induction s with
  | nil => intro skip _; simp [rangeVisited]
  | cons c s ih =>
    intro skip h
    cases skip with
    | zero =>
      rw [rangeVisited, List.filter_cons, List.filter_cons,
        ih _ (runeWidth_continuation c s)]
    | succ k =>
      simp only [List.take_succ_cons, List.all_cons, Bool.and_eq_true] at h
      rw [rangeVisited, List.filter_cons, hp c h.1, ih k h.2]
      simp

theorem encodedBytes_filter (p : Byte → Bool) (hp : ∀ b, isContinuation b = true → p b = false)
    (s : List Byte) : (encodedBytes s).filter p = s.filter p := by
  unfold encodedBytes
  split
  · rfl
  · exact rangeVisited_filter p hp s 0 (by simp)

theorem encodedBytes_count (x : Byte) (hx : x.val < 0x80) (s : List Byte) :
    (encodedBytes s).count x = s.count x := by
  have h := encodedBytes_filter (fun b => b == x)
    (by
      intro b hb
      have : b ≠ x := by
        intro hbx
        subst hbx
        simp [isContinuation] at hb
        omega
      simpa using this) s
  simp only [List.count, List.countP_eq_length_filter, h]

/-! ## What the encoder's result contains -/

theorem hexUpper_plain : ∀ n < 16,
    hexUpper n ≠ ch ' ' ∧ hexUpper n ≠ ch '&' ∧ hexUpper n ≠ ch '#' := by
  decide

theorem shouldEscape_separators :
    shouldEscape (ch '&') = true ∧ shouldEscape (ch '#') = true
      ∧ shouldEscape (ch '+') = true := by
  decide

theorem encodeByte_of_unescaped (c : Byte) (h : shouldEscape c = false) :
    encodeByte c = [c] := by
  simp [encodeByte, h]

theorem encodeByte_space : encodeByte (ch ' ') = [ch '+'] := by decide

theorem encodeByte_of_percentEncoded (c : Byte) (h1 : shouldEscape c = true)
    (h2 : c ≠ ch ' ') : encodeByte c = percentForm c := by
  simp [encodeByte, percentForm, h1, h2]

theorem encodeByte_mem (c b : Byte) (hb : b ∈ encodeByte c) :
    b ≠ ch ' ' ∧ b ≠ ch '&' ∧ b ≠ ch '#' := by
  cases h1 : shouldEscape c with
  | false =>
    rw [encodeByte_of_unescaped c h1, List.mem_singleton] at hb
    subst hb
    refine ⟨?_, ?_, ?_⟩ <;> intro h <;> rw [h] at h1
    · rw [shouldEscape_space] at h1; cases h1
    · rw [shouldEscape_separators.1] at h1; cases h1
    · rw [shouldEscape_separators.2.1] at h1; cases h1
  | true =>
    by_cases h2 : c = ch ' '
    · rw [h2, encodeByte_space, List.mem_singleton] at hb
      rw [hb]
      decide
    · rw [encodeByte_of_percentEncoded c h1 h2, percentForm] at hb
      simp only [List.mem_cons, List.mem_singleton, List.mem_nil_iff, or_false] at hb
      rcases hb with hb | hb | hb <;> rw [hb]
      · decide
      · exact hexUpper_plain _ (by omega)
      · exact hexUpper_plain _ (by omega)

set_option maxRecDepth 100000 in
theorem encodeByte_count_plus : ∀ c : Byte,
    (encodeByte c).count (ch '+') = if c = ch ' ' then 1 else 0 := by
  decide

theorem mem_encoded (vs : List Byte) (k : Nat) (b : Byte)
    (h : b ∈ vs.flatMap encodeByte ++ List.replicate k 0) :
    b ≠ ch ' ' ∧ b ≠ ch '&' ∧ b ≠ ch '#' := by
  rw [List.mem_append] at h
  rcases h with h | h
  · obtain ⟨c, _, hb⟩ := List.mem_flatMap.mp h
    exact encodeByte_mem c b hb
  · have : b = 0 := (List.mem_replicate.mp h).2
    subst this
    decide

theorem count_plus_encoded (vs : List Byte) (k : Nat) :
    (vs.flatMap encodeByte ++ List.replicate k 0).count (ch '+') = vs.count (ch ' ') := by
  induction vs with
  | nil =>
    have h0 : ((0 : Byte) == ch '+') = false := by decide
    simp [List.count_replicate, h0]
  | cons c vs ih =>
    rw [List.flatMap_cons, List.append_assoc, List.count_append, ih, encodeByte_count_plus,
      List.count_cons]
    by_cases hc : c = ch ' '
    · simp [hc]; omega
    · simp [hc]

theorem hexUpper_injective : ∀ m < 16, ∀ n < 16, hexUpper m = hexUpper n → m = n := by
  decide

theorem hexUpper_ne_percent : ∀ n < 16, (ch '%' == hexUpper n) = false := by
  decide

theorem percentForm_injective (c x : Byte) (h : percentForm c = percentForm x) : c = x := by
  simp only [percentForm, List.cons.injEq, and_true, true_and] at h
  have h1 := hexUpper_injective _ (by omega) _ (by omega) h.1
  have h2 := hexUpper_injective _ (by omega) _ (by omega) h.2
  exact Fin.ext (by omega)

theorem countInfix_cons (pat : List Byte) (c : Byte) (rest : List Byte) :
    countInfix pat (c :: rest)
      = (if pat.isPrefixOf (c :: rest) then 1 else 0) + countInfix pat rest := rfl

theorem countInfix_replicate (x : Byte) (k : Nat) :
    countInfix (percentForm x) (List.replicate k 0) = 0 := by
  induction k with
  | zero => rfl
  | succ k ih =>
    have h0 : (ch '%' == (0 : Byte)) = false := by decide
    rw [List.replicate_succ, countInfix_cons, ih]
    simp [percentForm, List.isPrefixOf, h0]

theorem countInfix_single (x c : Byte) (hc : (ch '%' == c) = false) (r : List Byte) :
    countInfix (percentForm x) (c :: r) = countInfix (percentForm x) r := by
  rw [countInfix_cons]
  simp [percentForm, List.isPrefixOf, hc]

theorem shouldEscape_percent : shouldEscape (ch '%') = true := by decide

theorem isPrefixOf_percentForm (x c : Byte) (r : List Byte) :
    (percentForm x).isPrefixOf (percentForm c ++ r) = decide (c = x) := by
  by_cases hx : c = x
  · subst hx
    simp [percentForm, List.isPrefixOf]
  · have hne : ¬ (hexUpper (x.val / 16) = hexUpper (c.val / 16)
        ∧ hexUpper (x.val % 16) = hexUpper (c.val % 16)) := by
      rintro ⟨e1, e2⟩
      exact hx (percentForm_injective c x (by simp [percentForm, e1, e2]))
    simp only [percentForm, List.cons_append, List.nil_append, List.isPrefixOf,
      beq_self_eq_true, Bool.true_and, Bool.and_true, hx, decide_False,
      Bool.and_eq_false_imp, beq_iff_eq]
    intro e1
    simpa using fun e2 => hne ⟨e1, e2⟩

theorem countInfix_encodeByte (x c : Byte) (r : List Byte) :
    countInfix (percentForm x) (encodeByte c ++ r)
      = (if percentEncoded c = true ∧ c = x then 1 else 0) + countInfix (percentForm x) r := by
  cases h1 : shouldEscape c with
  | false =>
    have hc : (ch '%' == c) = false := by
      have : ch '%' ≠ c := fun h => by
        rw [← h, shouldEscape_percent] at h1
        cases h1
      simpa using this
    rw [encodeByte_of_unescaped c h1, List.singleton_append, countInfix_single x c hc]
    simp [percentEncoded, h1]
  | true =>
    by_cases h2 : c = ch ' '
    · subst h2
      have hc : (ch '%' == ch '+') = false := by decide
      rw [encodeByte_space, List.singleton_append, countInfix_single x _ hc]
      simp [percentEncoded]
    · have hH := hexUpper_ne_percent (c.val / 16) (by omega)
      have hL := hexUpper_ne_percent (c.val % 16) (by omega)
      have hp : percentEncoded c = true := by simp [percentEncoded, h1, h2]
      have hpre := isPrefixOf_percentForm x c r
      have e : percentForm c ++ r
          = ch '%' :: hexUpper (c.val / 16) :: hexUpper (c.val % 16) :: r := rfl
      rw [encodeByte_of_percentEncoded c h1 h2]
      rw [e] at hpre ⊢
      rw [countInfix_cons, countInfix_single x _ hH, countInfix_single x _ hL, hp, hpre]
      by_cases hx : c = x <;> simp [hx]

theorem countInfix_encoded (x : Byte) (vs : List Byte) (k : Nat) :
    countInfix (percentForm x) (vs.flatMap encodeByte ++ List.replicate k 0)
      = if percentEncoded x = true then vs.count x else 0 := by
  induction vs with
  | nil => simp [countInfix_replicate]
  | cons c vs ih =>
    rw [List.flatMap_cons, List.append_assoc, countInfix_encodeByte, ih, List.count_cons]
    by_cases hx : c = x
    · subst hx
      by_cases hp : percentEncoded c = true
      · simp [hp]; omega
      · simp [hp]
    · have : (c == x) = false := by simpa using hx
      simp [hx, this]

theorem isPrefixOf_append_self (pat post : List Byte) : pat.isPrefixOf (pat ++ post) = true := by
  induction pat with
  | nil => simp [List.isPrefixOf]
  | cons a pat ih => simp [List.isPrefixOf, ih]

theorem countInfix_pos (pat : List Byte) (hpat : pat ≠ []) (pre post : List Byte) :
    0 < countInfix pat (pre ++ pat ++ post) := by
  induction pre with
  | nil =>
    cases pat with
    | nil => exact absurd rfl hpat
    | cons a pat =>
      have := isPrefixOf_append_self (a :: pat) post
      simp only [List.nil_append, List.cons_append] at this ⊢
      rw [countInfix_cons, this]
      simp
  | cons c pre ih =>
    simp only [List.cons_append] at ih ⊢
    rw [countInfix_cons]
    omega

/-! ## Spaces and separators in the encoder's result -/

/-- C14: the result of `escapeParameterValue` holds no space byte and nowhere the three
bytes `%20`, and it holds as many `+` bytes as the input holds spaces. -/
theorem spaces_become_plus : ∀ s : List Byte, ∃ e, escapeParameterValue s = some e
    ∧ ch ' ' ∉ e
    ∧ (∀ pre post : List Byte, e ≠ pre ++ ascii "%20" ++ post)
    ∧ e.count (ch '+') = s.count (ch ' ') := by
  intro s
  obtain ⟨k, hk⟩ := escapeParameterValue_shape s
  refine ⟨_, hk, fun h => (mem_encoded _ _ _ h).1 rfl, ?_, ?_⟩
  · intro pre post heq
    have h0 := countInfix_encoded (ch ' ') (encodedBytes s) k
    have hp : percentEncoded (ch ' ') = false := by decide
    have hf : percentForm (ch ' ') = ascii "%20" := by decide
    rw [hp, hf, heq] at h0
    have := countInfix_pos (ascii "%20") (by decide) pre post
    simp only [Bool.false_eq_true, if_false] at h0
    omega
  · rw [count_plus_encoded, encodedBytes_count _ (by decide)]

/-- C15: the result of `escapeParameterValue` holds no `&` and no `#` byte; it is the
per-byte encodings of a list of bytes that holds the input's bytes below `0x80`, in order,
followed by zero bytes; `%26`, `%2B` and `%23` occur in it as often as `&`, `+` and `#`
occur in the input, these being the encodings of the three bytes, and each `+` of the
result stands for a space of the input. -/
theorem separators_escaped :
    (∀ s : List Byte, ∃ e, escapeParameterValue s = some e
      ∧ ch '&' ∉ e ∧ ch '#' ∉ e
      ∧ (∃ (vs : List Byte) (k : Nat), e = vs.flatMap encodeByte ++ List.replicate k 0
          ∧ vs.filter (fun b => decide (b.val < 0x80)) = s.filter (fun b => decide (b.val < 0x80)))
      ∧ countInfix (ascii "%26") e = s.count (ch '&')
      ∧ countInfix (ascii "%2B") e = s.count (ch '+')
      ∧ countInfix (ascii "%23") e = s.count (ch '#')
      ∧ e.count (ch '+') = s.count (ch ' '))
    ∧ encodeByte (ch '&') = ascii "%26" ∧ encodeByte (ch '+') = ascii "%2B"
    ∧ encodeByte (ch '#') = ascii "%23"
    ∧ escapeParameterValue (ascii "a&b+c#d") = some (ascii "a%26b%2Bc%23d") := by
  refine ⟨fun s => ?_, by decide, by decide, by decide, by decide⟩
  obtain ⟨k, hk⟩ := escapeParameterValue_shape s
  have h1 := countInfix_encoded (ch '&') (encodedBytes s) k
  have h2 := countInfix_encoded (ch '+') (encodedBytes s) k
  have h3 := countInfix_encoded (ch '#') (encodedBytes s) k
  have p1 : percentEncoded (ch '&') = true := by decide
  have p2 : percentEncoded (ch '+') = true := by decide
  have p3 : percentEncoded (ch '#') = true := by decide
  have f1 : percentForm (ch '&') = ascii "%26" := by decide
  have f2 : percentForm (ch '+') = ascii "%2B" := by decide
  have f3 : percentForm (ch '#') = ascii "%23" := by decide
  rw [p1, f1, if_pos rfl, encodedBytes_count _ (by decide)] at h1
  rw [p2, f2, if_pos rfl, encodedBytes_count _ (by decide)] at h2
  rw [p3, f3, if_pos rfl, encodedBytes_count _ (by decide)] at h3
  refine ⟨_, hk, fun h => (mem_encoded _ _ _ h).2.1 rfl, fun h => (mem_encoded _ _ _ h).2.2 rfl,
    ⟨encodedBytes s, k, rfl, ?_⟩, h1, h2, h3, ?_⟩
  · exact encodedBytes_filter _ (by
      intro b hb
      simp only [isContinuation, Bool.and_eq_true, decide_eq_true_eq] at hb
      simp only [decide_eq_false_iff_not]
      omega) s
  · rw [count_plus_encoded, encodedBytes_count _ (by decide)]

/-! ## Totality of the encoder -/

theorem emitPass_buffer (value : List Byte) :
    emitPass value 0 ⟨List.replicate (value.length + 2 * value.countP percentEncoded) 0, 0⟩
      = some ⟨emitted value 0
          ++ List.replicate (value.length + 2 * value.countP percentEncoded
              - (emitted value 0).length) 0,
          (emitted value 0).length⟩ := by
  have h := emitPass_append value 0 []
    (List.replicate (value.length + 2 * value.countP percentEncoded) 0)
    (by rw [bytewiseEncode_length]; simp)
  simpa using h

set_option maxRecDepth 100000 in
theorem hexDigits_index : ∀ c : Byte,
    c.val >>> 4 < hexDigits.length ∧ c.val &&& 0xf < hexDigits.length := by
  decide

/-- C16: `escapeParameterValue` returns on every input. The second pass, run on the
buffer of `len(value) + 2 * charactersToPercentEncode` bytes sized by the first pass,
completes with the buffer at that length and the write index at most that length, a write
succeeding only at an index below the buffer's length; both digit lookups index within
the sixteen bytes of the digit table. -/
theorem escapeParameterValue_total : ∀ value : List Byte,
    (∃ e, escapeParameterValue value = some e)
    ∧ (countPass value false 0).2 = value.countP percentEncoded
    ∧ (∃ st, emitPass value 0
          ⟨List.replicate (value.length + 2 * (countPass value false 0).2) 0, 0⟩ = some st
        ∧ st.encoded.length = value.length + 2 * (countPass value false 0).2
        ∧ st.encodedIndex ≤ value.length + 2 * (countPass value false 0).2)
    ∧ (∀ (st : Buffer) (c : Byte),
        (emit st c).isSome = true ↔ st.encodedIndex < st.encoded.length)
    ∧ (∀ c : Byte, c.val >>> 4 < hexDigits.length ∧ c.val &&& 0xf < hexDigits.length)
    ∧ hexDigits.length = 16 := by
  intro value
  have hcount : (countPass value false 0).2 = value.countP percentEncoded := by
    simp [countPass_eq]
  have hle := emitted_length_le value 0
  rw [bytewiseEncode_length] at hle
  refine ⟨escapeParameterValue_isSome value, hcount, ?_, ?_, hexDigits_index, by decide⟩
  · rw [hcount]
    refine ⟨_, emitPass_buffer value, ?_, hle⟩
    simp only [List.length_append, List.length_replicate]
    omega
  · intro st c
    unfold emit
    split <;> simp_all

/-! ## Unescaped text in front of a value -/

set_option maxRecDepth 100000 in
theorem ascii_of_unescaped : ∀ c : Byte, shouldEscape c = false → c.val < 0x80 := by
  decide

theorem rangeVisited_append (p : List Byte) (hp : ∀ b ∈ p, b.val < 0x80) (s : List Byte) :
    rangeVisited (p ++ s) 0 = p ++ rangeVisited s 0 := by
  induction p with
  | nil => rfl
  | cons a p ih =>
    have ha : a.val < 0x80 := hp a (by simp)
    have hw : runeWidth (a :: (p ++ s)) = 1 := by simp [runeWidth, ha]
    rw [List.cons_append, rangeVisited, hw, ih (fun b hb => hp b (by simp [hb]))]
    rfl

theorem flatMap_encodeByte_of_unescaped (p : List Byte)
    (hp : ∀ b ∈ p, shouldEscape b = false) : p.flatMap encodeByte = p := by
  induction p with
  | nil => rfl
  | cons a p ih =>
    rw [List.flatMap_cons, encodeByte_of_unescaped a (hp a (by simp)),
      ih (fun b hb => hp b (by simp [hb]))]
    rfl

theorem escapeParameterValue_append (p s : List Byte)
    (hp : ∀ b ∈ p, shouldEscape b = false) :
    escapeParameterValue (p ++ s) = (escapeParameterValue s).map fun e => p ++ e := by
  have hc : p.countP percentEncoded = 0 := by
    rw [List.countP_eq_zero]
    intro b hb
    simp [percentEncoded, hp b hb]
  have hs : p.any (fun c => decide (c = ch ' ')) = false := by
    rw [List.any_eq_false]
    intro b hb
    have : b ≠ ch ' ' := fun hbs => by
      have := hp b hb
      rw [hbs, shouldEscape_space] at this
      cases this
    simpa using this
  have hv : emitted (p ++ s) 0 = p ++ emitted s 0 := by
    rw [emitted, rangeVisited_append p (fun b hb => ascii_of_unescaped b (hp b hb)),
      List.flatMap_append, flatMap_encodeByte_of_unescaped p hp, emitted]
  have hb : bytewiseEncode (p ++ s) = p ++ bytewiseEncode s := by
    rw [bytewiseEncode, List.flatMap_append, flatMap_encodeByte_of_unescaped p hp,
      bytewiseEncode]
  rw [escapeParameterValue_eq, escapeParameterValue_eq, Option.map_some', hv, hb]
  simp only [List.countP_append, hc, Nat.zero_add, List.any_append, hs, Bool.false_or,
    List.length_append, Nat.add_sub_add_left]
  split <;> simp

set_option maxRecDepth 100000 in
/-- C17: `Inline c` is `inline:` followed by `c` as it is, and encoding it gives `inline:`
followed by the encoding of `c`; so a typed view over inline content is emitted as the
name, `=`, the type, `:inline:` and the encoded content, as `b=md:inline:a+b` for
`Markdown(b, Inline("a b"))`. -/
theorem inline_commutes_with_encoding :
    (∀ c : List Byte,
      Inline c = ascii "inline:" ++ c
      ∧ ∃ e, escapeParameterValue c = some e
        ∧ escapeParameterValue (Inline c) = some (ascii "inline:" ++ e)
        ∧ ∀ name type : List Byte, type ≠ [] →
            Layout.URL [] [⟨name, type, Inline c⟩]
              = some (ascii "https://flexivis.infrastruktur.link#" ++ name ++ ascii "="
                  ++ type ++ ascii ":inline:" ++ e))
    ∧ Layout.URL [] [Markdown (ascii "b") (Inline (ascii "a b"))]
        = some (ascii "https://flexivis.infrastruktur.link#b=md:inline:a+b") := by
  refine ⟨fun c => ⟨rfl, ?_⟩, by decide⟩
  obtain ⟨e, he⟩ := escapeParameterValue_isSome c
  have hi : escapeParameterValue (Inline c) = some (ascii "inline:" ++ e) := by
    rw [Inline, escapeParameterValue_append _ _ (by decide), he]
    rfl
  refine ⟨e, he, hi, fun name type ht => ?_⟩
  have h := Layout_URL_eq [] [⟨name, type, Inline c⟩] [ascii "inline:" ++ e] (by simp [hi])
  rw [h]
  have e1 : ascii ":inline:" = [ch ':'] ++ ascii "inline:" := by decide
  have e2 : ascii "=" = [ch '='] := by decide
  simp [layoutParameter, viewParameter, ht, urlPrefix, List.intercalate, e1, e2]

/-! ## The typed view constructors -/

/-- C18: each of `JSON`, `Map`, `Markdown`, `Mermaid`, `Text` and `Vega` returns the view
with the given name and resource, unchanged, and its own fixed type tag. -/
theorem typed_view_constructors : ∀ (n : ViewName) (r : Resource),
    JSON n r = ⟨n, ascii "json", r⟩
    ∧ Map n r = ⟨n, ascii "map", r⟩
    ∧ Markdown n r = ⟨n, ascii "md", r⟩
    ∧ Mermaid n r = ⟨n, ascii "mermaid", r⟩
    ∧ Text n r = ⟨n, ascii "text", r⟩
    ∧ Vega n r = ⟨n, ascii "vega", r⟩
    ∧ (JSON n r).Name = n ∧ (JSON n r).Resource = r
    ∧ (Vega n r).Name = n ∧ (Vega n r).Resource = r :=
  fun _ _ => ⟨rfl, rfl, rfl, rfl, rfl, rfl, rfl, rfl, rfl, rfl⟩

/-! ## The buffer beyond ASCII -/

/-- C19, on the code: for the three-byte input `C3 A9 20` (one two-byte rune and a space)
the first pass counts two bytes to percent-encode and sizes the buffer at seven bytes; the
second pass runs its body at indices 0 and 2 only and ends with the write index at 4, the
last three bytes of the returned buffer still zero. -/
theorem second_pass_stops_short :
    countPass [0xC3, 0xA9, 0x20] false 0 = (true, 2)
    ∧ emitPass [0xC3, 0xA9, 0x20] 0 ⟨List.replicate (3 + 2 * 2) 0, 0⟩
        = some ⟨[0x25, 0x43, 0x33, 0x2B, 0, 0, 0], 4⟩
    ∧ escapeParameterValue [0xC3, 0xA9, 0x20] = some [0x25, 0x43, 0x33, 0x2B, 0, 0, 0] := by
  decide

/-- C20, on the code: for the four-byte input `F0 9F 98 80` (one four-byte rune) the
result is `%F0` followed by nine zero bytes, so it holds the byte zero, which is outside
the alphabet of the claim. -/
theorem result_holds_zero_bytes :
    escapeParameterValue [0xF0, 0x9F, 0x98, 0x80]
      = some (ascii "%F0" ++ List.replicate 9 0)
    ∧ ∃ e, escapeParameterValue [0xF0, 0x9F, 0x98, 0x80] = some e ∧ (0 : Byte) ∈ e := by
  exact ⟨by decide, ascii "%F0" ++ List.replicate 9 0, by decide, by decide⟩

/-! ## Agreement with the bytewise encoder on ASCII, and the round trip -/

theorem hexValue_hexUpper : ∀ n < 16, hexValue (hexUpper n) = some n := by
  decide

theorem percentDecode_cons_plain (c : Byte) (h1 : c ≠ ch '%') (h2 : c ≠ ch '+')
    (r : List Byte) : percentDecode (c :: r) = (percentDecode r).map fun d => c :: d := by
  conv_lhs => rw [percentDecode.eq_def]
  simp only [h1, h2, if_false]

theorem percentDecode_cons_plus (r : List Byte) :
    percentDecode (ch '+' :: r) = (percentDecode r).map fun d => ch ' ' :: d := by
  have h : ch '+' ≠ ch '%' := by decide
  conv_lhs => rw [percentDecode.eq_def]
  simp only [h, if_false, if_true]

theorem percentDecode_percentForm (c : Byte) (r : List Byte) :
    percentDecode (percentForm c ++ r) = (percentDecode r).map fun d => c :: d := by
  have hH := hexValue_hexUpper (c.val / 16) (by omega)
  have hL := hexValue_hexUpper (c.val % 16) (by omega)
  have hc : (Fin.ofNat (16 * (c.val / 16) + c.val % 16) : Byte) = c := by
    apply Fin.ext
    simp only [Fin.ofNat, Fin.val_mk]
    omega
  have e : percentForm c ++ r
      = ch '%' :: hexUpper (c.val / 16) :: hexUpper (c.val % 16) :: r := rfl
  rw [e]
  conv_lhs => rw [percentDecode.eq_def]
  simp only [if_true, hH, hL]
  cases percentDecode r with
  | none => rfl
  | some d => simp [hc]

theorem percentDecode_encodeByte (c : Byte) (r : List Byte) :
    percentDecode (encodeByte c ++ r) = (percentDecode r).map fun d => c :: d := by
  cases h1 : shouldEscape c with
  | false =>
    have hp : c ≠ ch '%' := fun h => by
      rw [h, shouldEscape_percent] at h1
      cases h1
    have hq : c ≠ ch '+' := fun h => by
      rw [h, shouldEscape_separators.2.2] at h1
      cases h1
    rw [encodeByte_of_unescaped c h1, List.singleton_append, percentDecode_cons_plain c hp hq]
  | true =>
    by_cases h2 : c = ch ' '
    · subst h2
      rw [encodeByte_space, List.singleton_append, percentDecode_cons_plus]
    · rw [encodeByte_of_percentEncoded c h1 h2, percentDecode_percentForm]

/-- Percent-decoding with `+` as space undoes the bytewise encoder, on every input. -/
theorem percentDecode_bytewiseEncode (s : List Byte) :
    percentDecode (bytewiseEncode s) = some s := by
  induction s with
  | nil => rfl
  | cons c s ih => rw [bytewiseEncode_cons, percentDecode_encodeByte, ih]; rfl

/-- C21: on an input all of whose bytes are below `0x80` the range loop runs its body on
every byte, `escapeParameterValue` returns the concatenation of the per-byte encodings,
and percent-decoding that result with `+` as space gives the input back. -/
theorem ascii_agrees_with_bytewise (s : List Byte) (h : ∀ b ∈ s, b.val < 0x80) :
    rangeVisited s 0 = s
    ∧ escapeParameterValue s = some (s.flatMap encodeByte)
    ∧ percentDecode (s.flatMap encodeByte) = some s
    ∧ (escapeParameterValue s).bind percentDecode = some s := by
  have h1 := escapeParameterValue_of_ascii s h
  have h2 := percentDecode_bytewiseEncode s
  rw [bytewiseEncode] at h1 h2
  exact ⟨rangeVisited_of_ascii s h, h1, h2, by rw [h1]; exact h2⟩

set_option maxRecDepth 100000 in
/-- C21 at the inline Mermaid text of the tests, `-->|Flexivis| r[Rendered Diagram]`:
it encodes to `--%3E%7CFlexivis%7C+r[Rendered+Diagram]`, which decodes to it. -/
theorem ascii_agrees_with_bytewise_witness :
    escapeParameterValue (ascii "-->|Flexivis| r[Rendered Diagram]")
      = some (ascii "--%3E%7CFlexivis%7C+r[Rendered+Diagram]")
    ∧ percentDecode (ascii "--%3E%7CFlexivis%7C+r[Rendered+Diagram]")
      = some (ascii "-->|Flexivis| r[Rendered Diagram]") :=
  have e : (ascii "-->|Flexivis| r[Rendered Diagram]").flatMap encodeByte
      = ascii "--%3E%7CFlexivis%7C+r[Rendered+Diagram]" := by decide
  have h := ascii_agrees_with_bytewise (ascii "-->|Flexivis| r[Rendered Diagram]") (by decide)
  ⟨e ▸ h.2.1, e ▸ h.2.2.1⟩

end Flexivis
